import Mathlib

/-!
# Verification of `get-charm-revisions.py`

A shallow embedding of the charm-revision reconciler:

* `get_charmstore_revisions` models `CharmInfo.get_charmstore_revisions`
  (registry scan with bounded listing retry, unbounded content-fetch retry,
  and regex extraction of provenance metadata);
* `stable_sha_dict` models `CharmGit.stable_sha_dict` (stable-branch
  commit window, ordered-dict insertion);
* `processCharm` / `runMain` model the per-charm body and the whole of
  `main` (normalisation of legacy entries, the owner lookup, the join,
  persistence and the `last_revision` checkpoint).

External I/O (charmstore HTTP responses, GitHub API responses) is passed
in as an explicit `Env` of response functions; the unbounded `repo-info`
fetch loop is run on explicit fuel, with fuel exhaustion (`none` /
`RunError.diverged`) modelling non-termination.  Machine-level details the
script never exercises (YAML serialisation syntax, unicode digits in
`\d`) are modelled at the level the script observes them: stores are
association lists standing for YAML mappings, and hexadecimal matching is
over ASCII.
-/

namespace CharmRevisions

/-- `STABLE_COMMIT_LOOKBACK = 20` from the script. -/
def STABLE_COMMIT_LOOKBACK : Nat := 20

/-- A per-revision record as stored under an integer key of a charm's
mapping.  Each field models presence/absence of the corresponding string
key in the Python dict (`sha`, `user`, `repo`, `release`). -/
structure RevisionRecord where
  sha : Option String := none
  user : Option String := none
  repo : Option String := none
  release : Option String := none
deriving Repr, DecidableEq

/-- Outcome of one `cs.files(cs_location)` call: the exceptions caught at
lines 68-78 of the script, or success with the list of file names. -/
inductive ListFilesResult where
  | entityNotFound
  | interactionError
  | serverError
  | ok (files : List String)
deriving Repr, DecidableEq

/-- Outcome of one `cs.files(cs_location, filename="repo-info",
read_file=True)` call: the only caught exception is `ServerError`;
success yields the file's text. -/
inductive FetchFileResult where
  | serverError
  | ok (text : String)
deriving Repr, DecidableEq

/-- The external world consumed by the script: registry and GitHub
responses, as pure response functions.  `listFiles charm rev attempt` is
the result of the `attempt`-th listing call of revision `rev` within one
scan; `fetchRepoInfo charm rev n` the result of the `n`-th `repo-info`
content fetch. `lastRevision charm` is the revision number parsed from
`entity["Id"]` (lines 44-46). -/
structure Env where
  lastRevision : String → Nat
  listFiles : String → Nat → Nat → ListFilesResult
  fetchRepoInfo : String → Nat → Nat → FetchFileResult
  branches : String → String → List String
  commits : String → String → String → List String

/-! ## Regular-expression extraction (lines 96-111)

`re.search` is modelled as trying every start position from the left and,
at each position, deciding whether the pattern matches there, returning
the leftmost (and, for the groups, leftmost-greedy) match. -/

/-- A character matched by `[\da-f]` (ASCII reading of `\d`). -/
def isHexDigitLower (c : Char) : Bool := c.isDigit || ('a' ≤ c && c ≤ 'f')

/-- The literal part of `r"commit-sha-1: ([\da-f]+)"`. -/
def shaLabel : List Char := "commit-sha-1: ".toList

/-- The literal part of `r"remote: https://github.com/(.+)/(.+)"`. -/
def remoteLabel : List Char := "remote: https://github.com/".toList

/-- Try to match `commit-sha-1: ([\da-f]+)` at the start of `s`,
returning the (greedy) capture. -/
def matchShaAt (s : List Char) : Option (List Char) :=
  if shaLabel.isPrefixOf s then
    let t := (s.drop shaLabel.length).takeWhile isHexDigitLower
    if t.isEmpty then none else some t
  else none

/-- Split a newline-free character list at the last `/` that still has at
least one character after it (the backtracking behaviour of the greedy
`(.+)/(.+)`): returns the parts before and after that slash. -/
def splitAtLastSlash : List Char → Option (List Char × List Char)
  | [] => none
  | c :: rest =>
    match splitAtLastSlash rest with
    | some (g1, g2) => some (c :: g1, g2)
    | none => if c = '/' && !rest.isEmpty then some ([], rest) else none

/-- Try to match `remote: https://github.com/(.+)/(.+)` at the start of
`s` (with `.` not crossing a newline), returning the two captures. -/
def matchRemoteAt (s : List Char) : Option (List Char × List Char) :=
  if remoteLabel.isPrefixOf s then
    match splitAtLastSlash ((s.drop remoteLabel.length).takeWhile (fun c => c ≠ '\n')) with
    | some (g1, g2) => if g1.isEmpty then none else some (g1, g2)
    | none => none
  else none

/-- Leftmost-match search: apply the position matcher `f` at every suffix
of the text, from the left, keeping the first hit — the `re.search`
strategy. -/
def reSearch {α : Type} (f : List Char → Option α) : List Char → Option α
  | [] => f []
  | c :: rest =>
    match f (c :: rest) with
    | some r => some r
    | none => reSearch f rest

/-- Parse a fetched `repo-info` text (lines 97-111): the commit sha (or
`none` when the revision is to be skipped), together with the optional
`(user, repo)` pair from the remote-URL line. -/
def parseRepoInfo (text : String) : Option (String × Option (String × String)) :=
  match reSearch matchShaAt text.toList with
  | none => none
  | some sha =>
    some (String.mk sha,
      (reSearch matchRemoteAt text.toList).map (fun p => (String.mk p.1, String.mk p.2)))

/-! ## The scanner (`CharmInfo.get_charmstore_revisions`, lines 39-115) -/

/-- The unbounded `while not repo_info` loop (lines 88-95): keep calling
the content fetch — retrying both on `ServerError` and on a falsy (empty)
text — until a fetch returns non-empty text.  `fuel` bounds the number of
modelled iterations; `none` models non-termination within the given
fuel. -/
def fetchLoop (resp : Nat → FetchFileResult) : Nat → Nat → Option String
  | _, 0 => none
  | start, fuel + 1 =>
    match resp start with
    | .serverError => fetchLoop resp (start + 1) fuel
    | .ok t => if t = "" then fetchLoop resp (start + 1) fuel else some t

/-- The bounded listing loop for one revision (lines 57-114): up to
`retry` listing attempts, giving `some none` when the revision ends up
absent from the result (not found, login issue, retries exhausted, no
`repo-info` file, or unparsable provenance), `some (some record)` when a
record is built, and `none` when the inner fetch loop runs out of
fuel. -/
def listingLoop (env : Env) (charm : String) (rev : Nat) (fuel : Nat) :
    Nat → Nat → Option (Option RevisionRecord)
  | _, 0 => some none
  | attempt, retry + 1 =>
    match env.listFiles charm rev attempt with
    | .entityNotFound => some none
    | .interactionError => some none
    | .serverError => listingLoop env charm rev fuel (attempt + 1) retry
    | .ok files =>
      if files.contains "repo-info" then
        match fetchLoop (env.fetchRepoInfo charm rev) 0 fuel with
        | none => none
        | some text =>
          match parseRepoInfo text with
          | none => some none
          | some (sha, userRepo) =>
            some (some { sha := some sha, user := userRepo.map Prod.fst,
                         repo := userRepo.map Prod.snd, release := none })
      else some none

/-- `range(last_revision, lcr, -1)` over the integers that are natural
numbers: the candidate revisions, in strictly descending order. -/
def revRange (hi : Nat) (lcr : Int) : List Nat :=
  ((List.range (hi + 1)).reverse).filter (fun r => lcr < (r : Int))

/-- Scan a list of candidate revisions in order, accumulating the
revision → record mapping in insertion (descending) order; `none`
propagates fuel exhaustion of a fetch loop. -/
def scanList (env : Env) (charm : String) (fuel : Nat) :
    List Nat → Option (List (Nat × RevisionRecord))
  | [] => some []
  | rev :: rest =>
    match listingLoop env charm rev fuel 0 3 with
    | none => none
    | some none => scanList env charm fuel rest
    | some (some rd) => (scanList env charm fuel rest).map (fun tail => (rev, rd) :: tail)

/-- `CharmInfo.get_charmstore_revisions`: look up the highest published
revision, apply the `-1` trick when it is `0` (lines 51-53), and walk the
candidates downward. -/
def get_charmstore_revisions (env : Env) (charm : String)
    (last_checked_revision : Int) (fuel : Nat) : Option (List (Nat × RevisionRecord)) :=
  let last_revision := env.lastRevision charm
  let lcr := if last_revision = 0 then -1 else last_checked_revision
  scanList env charm fuel (revRange last_revision lcr)

/-! ## The branch resolver (`CharmGit.stable_sha_dict`, lines 132-148) -/

/-- Test of `re.search(r"^stable/.+$", branch.name)`: the name starts
with `stable/`, and what follows — after dropping one trailing newline,
which `$` tolerates — is non-empty and newline-free. -/
def isStableBranch (name : String) : Bool :=
  "stable/".toList.isPrefixOf name.toList &&
    (let r := name.toList.drop 7
     let core := if r.getLast? = some '\n' then r.dropLast else r
     !core.isEmpty && !core.contains '\n')

/-- Assignment `commits[sha] = branch` on an ordered dict: overwrite the
value in place when the key exists, else append. -/
def odInsert (m : List (String × String)) (k v : String) : List (String × String) :=
  if m.any (fun p => p.1 = k) then m.map (fun p => if p.1 = k then (k, v) else p)
  else m ++ [(k, v)]

/-- First-match lookup on the ordered dict. -/
def odLookup : List (String × String) → String → Option String
  | [], _ => none
  | p :: rest, k => if p.1 = k then some p.2 else odLookup rest k

/-- `CharmGit.stable_sha_dict`: for each branch matching the stable
pattern, insert the first `STABLE_COMMIT_LOOKBACK` commits of the branch
into the ordered dict, mapped to the branch name. -/
def stable_sha_dict (env : Env) (user repo : String) : List (String × String) :=
  (env.branches user repo).foldl
    (fun commits branch =>
      if isStableBranch branch then
        ((env.commits user repo branch).take STABLE_COMMIT_LOOKBACK).foldl
          (fun cs sha => odInsert cs sha branch) commits
      else commits)
    []

/-! ## The reconciler (`main`, lines 155-216) -/

/-- A value stored under a charm name in `charm_revisions.yaml`: either a
legacy non-dict scalar (normalised away at lines 166-168) or a mapping
with an optional `last_revision` key and integer-keyed revision
records. -/
inductive StoredValue where
  | legacy
  | entry (last_revision : Option Nat) (revisions : List (Nat × RevisionRecord))
deriving Repr, DecidableEq

/-- The persisted store: the YAML top-level mapping, charm name →
value. -/
abbrev Store := List (String × StoredValue)

/-- How a modelled run can fail to produce a final store: an unbounded
fetch loop that never terminates, or an uncaught `KeyError` from a dict
read in `main`. -/
inductive RunError where
  | diverged
  | keyError
deriving Repr, DecidableEq

/-- Read a charm's value from the store (Python dict lookup). -/
def storeGet : Store → String → Option StoredValue
  | [], _ => none
  | p :: rest, charm => if p.1 = charm then some p.2 else storeGet rest charm

/-- Write a charm's value in the store; `main` only ever writes keys that
were loaded from the file, so no append case is needed (writing a missing
key leaves the store unchanged). -/
def storeSet (s : Store) (charm : String) (v : StoredValue) : Store :=
  s.map (fun p => if p.1 = charm then (charm, v) else p)

/-- Lines 185-195: walk the scan result in insertion order looking for
the first revision whose record has a `user` key; reading its `repo` key
raises `KeyError` if absent. -/
def findUserRepo : List (Nat × RevisionRecord) → Except RunError (Option (String × String))
  | [] => .ok none
  | (_, rd) :: rest =>
    match rd.user with
    | none => findUserRepo rest
    | some u =>
      match rd.repo with
      | none => .error .keyError
      | some r => .ok (some (u, r))

/-- Lines 200-203: iterate the resolved commit → branch mapping; on the
first key equal to the record's `sha`, set `release` and stop.  The
`sha` read happens inside the loop, so an empty mapping never reads
it. -/
def joinRecord (hashes : List (String × String)) (rd : RevisionRecord) :
    Except RunError RevisionRecord :=
  match hashes with
  | [] => .ok rd
  | (commit_sha, branch) :: rest =>
    match rd.sha with
    | none => .error .keyError
    | some s =>
      if s = commit_sha then .ok { rd with release := some branch }
      else joinRecord rest rd

/-- Python `dict.update`: keys present in the new record overwrite, keys
absent keep the old value. -/
def updateRecord (oldRec newRec : RevisionRecord) : RevisionRecord :=
  { sha := newRec.sha.orElse (fun _ => oldRec.sha),
    user := newRec.user.orElse (fun _ => oldRec.user),
    repo := newRec.repo.orElse (fun _ => oldRec.repo),
    release := newRec.release.orElse (fun _ => oldRec.release) }

/-- First-match read of an integer-keyed revision record. -/
def revsGet : List (Nat × RevisionRecord) → Nat → Option RevisionRecord
  | [], _ => none
  | p :: rest, r => if p.1 = r then some p.2 else revsGet rest r

/-- Write of an integer-keyed revision record: in-place overwrite when
the key exists, else append (the `KeyError` assignment branch of lines
205-208). -/
def revsSet (l : List (Nat × RevisionRecord)) (r : Nat) (v : RevisionRecord) :
    List (Nat × RevisionRecord) :=
  if l.any (fun p => p.1 = r) then l.map (fun p => if p.1 = r then (r, v) else p)
  else l ++ [(r, v)]

/-- Lines 198-208: join every scanned record against the branch mapping
and merge it into the charm's stored revisions. -/
def persistRevisions (hashes : List (String × String)) :
    List (Nat × RevisionRecord) → List (Nat × RevisionRecord) →
      Except RunError (List (Nat × RevisionRecord))
  | [], revs => .ok revs
  | (rev, rd) :: rest, revs =>
    match joinRecord hashes rd with
    | .error e => .error e
    | .ok joined =>
      let newVal :=
        match revsGet revs rev with
        | some existing => updateRecord existing joined
        | none => joined
      persistRevisions hashes rest (revsSet revs rev newVal)

/-- `sorted(revision_detail.keys())[-1]` for a non-empty result: the
largest revision key. -/
def maxRevision (l : List (Nat × RevisionRecord)) : Nat :=
  (l.map Prod.fst).foldl Nat.max 0

/-- The in-memory dict and the last file contents written by
`yaml.dump`; before any dump the file still holds what was loaded. -/
structure RunState where
  memory : Store
  dumped : Store
deriving Repr, DecidableEq

/-- One iteration of the `for charm in charmlist` loop (lines 161-216):
normalise a legacy value, scan, return early on an empty result, find
the owner, resolve branches, join and persist, then checkpoint
`last_revision` and dump.  Of the two dumps in the joined case only the
final one is observable in the file, so the state records the last. -/
def processCharm (env : Env) (fuel : Nat) (st : RunState) (charm : String) :
    Except RunError RunState :=
  let details := (storeGet st.memory charm).getD .legacy
  let mem1 :=
    match details with
    | .legacy => storeSet st.memory charm (.entry none [])
    | .entry _ _ => st.memory
  let lastLR : Nat :=
    match details with
    | .legacy => 0
    | .entry lr _ => lr.getD 0
  let storedRevs : List (Nat × RevisionRecord) :=
    match details with
    | .legacy => []
    | .entry _ revs => revs
  match get_charmstore_revisions env charm (lastLR : Int) fuel with
  | none => .error .diverged
  | some revision_detail =>
    if revision_detail.isEmpty then .ok ⟨mem1, st.dumped⟩
    else
      match findUserRepo revision_detail with
      | .error e => .error e
      | .ok none =>
        let mem2 := storeSet mem1 charm (.entry (some (maxRevision revision_detail)) storedRevs)
        .ok ⟨mem2, mem2⟩
      | .ok (some (u, r)) =>
        match persistRevisions (stable_sha_dict env u r) revision_detail storedRevs with
        | .error e => .error e
        | .ok revs2 =>
          let lrOpt : Option Nat :=
            match details with
            | .legacy => none
            | .entry lr _ => lr
          let mem2 := storeSet mem1 charm (.entry lrOpt revs2)
          let mem3 := storeSet mem2 charm (.entry (some (maxRevision revision_detail)) revs2)
          .ok ⟨mem3, mem3⟩

/-- Process the sorted charm list in order, threading the run state. -/
def processList (env : Env) (fuel : Nat) : RunState → List String → Except RunError RunState
  | st, [] => .ok st
  | st, charm :: rest =>
    match processCharm env fuel st charm with
    | .error e => .error e
    | .ok st2 => processList env fuel st2 rest

/-- Insertion into a sorted string list, for `sorted(...)`. -/
def insertSortedStr (x : String) : List String → List String
  | [] => [x]
  | y :: ys => if x ≤ y then x :: y :: ys else y :: insertSortedStr x ys

/-- `sorted(list(charm_data.keys()))`. -/
def sortedStrings (l : List String) : List String := l.foldr insertSortedStr []

/-- The whole of `main`: load the store, iterate the sorted charm list,
and report the final contents of `charm_revisions.yaml` (the last dump;
the initial file if nothing was dumped). -/
def runMain (env : Env) (fuel : Nat) (file : Store) : Except RunError Store :=
  match processList env fuel ⟨file, file⟩ (sortedStrings (file.map Prod.fst)) with
  | .error e => .error e
  | .ok st => .ok st.dumped

/-! ## Value-level view of one charm iteration

`processCharm` touches the store only at the processed charm's key; the
following definitions express the per-charm effect on that single value,
used to reason about repeated runs. -/

/-- The `last_checked_revision` read from a stored value
(`details.get("last_revision", 0)`, with a legacy scalar giving the
default 0). -/
def lcrOf : StoredValue → Nat
  | .legacy => 0
  | .entry lr _ => lr.getD 0

/-- The revision records held by a stored value. -/
def revsOf : StoredValue → List (Nat × RevisionRecord)
  | .legacy => []
  | .entry _ revs => revs

/-- The `last_revision` field held by a stored value. -/
def lrOptOf : StoredValue → Option Nat
  | .legacy => none
  | .entry lr _ => lr

/-- Lines 166-168: a legacy non-dict value becomes an empty dict; a dict
is kept. -/
def normalizeValue : StoredValue → StoredValue
  | .legacy => .entry none []
  | .entry lr revs => .entry lr revs

/-- The effect of one charm iteration on the charm's stored value,
together with whether the iteration dumped the store. -/
def processValue (env : Env) (fuel : Nat) (charm : String) (v : StoredValue) :
    Except RunError (StoredValue × Bool) :=
  match get_charmstore_revisions env charm (lcrOf v : Int) fuel with
  | none => .error .diverged
  | some D =>
    if D.isEmpty then .ok (normalizeValue v, false)
    else
      match findUserRepo D with
      | .error e => .error e
      | .ok none => .ok (.entry (some (maxRevision D)) (revsOf v), true)
      | .ok (some (u, r)) =>
        match persistRevisions (stable_sha_dict env u r) D (revsOf v) with
        | .error e => .error e
        | .ok revs2 => .ok (.entry (some (maxRevision D)) revs2, true)

/-- A charm whose stored value in `s` is a fixed point of one iteration:
re-processing it writes the same value back. -/
def StableAt (env : Env) (fuel : Nat) (s : Store) (c : String) : Prop :=
  ∃ lr revs fl, storeGet s c = some (.entry lr revs) ∧
    processValue env fuel c (.entry lr revs) = .ok (.entry lr revs, fl)

/-- A charm whose scan, run from the checkpoint recorded in `s`, comes
back empty. -/
def EmptyAt (env : Env) (fuel : Nat) (s : Store) (c : String) : Prop :=
  get_charmstore_revisions env c (lcrOf ((storeGet s c).getD .legacy) : Int) fuel = some []

/-! ## Concrete environments used as witnesses and counterexamples -/

/-- An environment whose registry serves one charm at highest revision 1,
whose `repo-info` has a commit line but no remote line, and an empty
GitHub side. -/
def envC1 : Env where
  lastRevision := fun _ => 1
  listFiles := fun _ _ _ => .ok ["repo-info"]
  fetchRepoInfo := fun _ _ _ => .ok "commit-sha-1: ab\n"
  branches := fun _ _ => []
  commits := fun _ _ _ => []

/-- The starting store for the `envC1` run: one tracked charm with
checkpoint 0 and no revision records. -/
def fileC1 : Store := [("c", .entry (some 0) [])]

/-- A GitHub side with two stable branches whose 20-commit windows share
the commit `c1`; the registry side is irrelevant. -/
def envC2 : Env where
  lastRevision := fun _ => 0
  listFiles := fun _ _ _ => .entityNotFound
  fetchRepoInfo := fun _ _ _ => .serverError
  branches := fun _ _ => ["stable/a", "stable/b"]
  commits := fun _ _ _ => ["c1"]

/-- An environment whose registry serves a charm with highest published
revision 0, with parsable provenance at revision 0. -/
def envC3 : Env where
  lastRevision := fun _ => 0
  listFiles := fun _ _ _ => .ok ["repo-info"]
  fetchRepoInfo := fun _ _ _ => .ok "commit-sha-1: ab\n"
  branches := fun _ _ => []
  commits := fun _ _ _ => []

/-- An environment exercising the whole pipeline: highest revision 1,
provenance with commit and remote, one stable branch containing the
commit. -/
def envFull : Env where
  lastRevision := fun _ => 1
  listFiles := fun _ _ _ => .ok ["repo-info"]
  fetchRepoInfo := fun _ _ _ => .ok "commit-sha-1: ab\nremote: https://github.com/u/r\n"
  branches := fun _ _ => ["stable/x"]
  commits := fun _ _ _ => ["ab"]

/-- An environment whose listing calls always time out. -/
def envTimeout : Env where
  lastRevision := fun _ => 3
  listFiles := fun _ _ _ => .serverError
  fetchRepoInfo := fun _ _ _ => .serverError
  branches := fun _ _ => []
  commits := fun _ _ _ => []

/-! ## Helper lemmas -/

/-- If no scanned record carries a `user` key, the owner search comes
back empty (and raises nothing). -/
theorem findUserRepo_none {D : List (Nat × RevisionRecord)}
    (h : ∀ p ∈ D, (p : Nat × RevisionRecord).2.user = none) :
    findUserRepo D = .ok none := by
  induction D with
  | nil => rfl
  | cons p rest ih =>
    have hp : p.2.user = none := h p (by simp)
    obtain ⟨r, rd⟩ := p
    simp only [findUserRepo]
    rw [hp]
    exact ih (fun q hq => h q (by simp [hq]))

/-- Membership in the candidate range. -/
theorem mem_revRange {r hi : Nat} {lcr : Int} :
    r ∈ revRange hi lcr ↔ r ≤ hi ∧ lcr < (r : Int) := by
  simp only [revRange, List.mem_filter, List.mem_reverse, List.mem_range,
    decide_eq_true_eq, Nat.lt_succ_iff]

/-- The candidate range is empty when the highest published revision does
not exceed the checkpoint. -/
theorem revRange_eq_nil {hi : Nat} {lcr : Int} (h : (hi : Int) ≤ lcr) :
    revRange hi lcr = [] := by
  rw [List.eq_nil_iff_forall_not_mem]
  intro r hr
  rcases mem_revRange.mp hr with ⟨h1, h2⟩
  have : (r : Int) ≤ (hi : Int) := by exact_mod_cast h1
  omega

/-! ## C7: the `-1` trick for a highest revision of 0 -/

/-- C7: for every package whose highest published revision is 0, the scan
treats `last_checked_revision` as `-1`, so the candidate list is exactly
`[0]`: revision 0 is scanned whatever the stored checkpoint was. -/
theorem scan_includes_revision_zero (env : Env) (charm : String)
    (last_checked_revision : Int) (fuel : Nat)
    (h : env.lastRevision charm = 0) :
    get_charmstore_revisions env charm last_checked_revision fuel =
      scanList env charm fuel [0] ∧
    revRange (env.lastRevision charm) (-1) = [0] := by
  constructor
  · simp only [get_charmstore_revisions, h]
    rfl
  · rw [h]
    rfl

/-- Witness for C7 at a concrete environment. -/
theorem scan_includes_revision_zero_witness :
    get_charmstore_revisions envC3 "c" 5 1 = scanList envC3 "c" 1 [0] ∧
    revRange (envC3.lastRevision "c") (-1) = [0] :=
  scan_includes_revision_zero envC3 "c" 5 1 rfl

/-! ## C3: nothing-new runs -/

/-- C3 counterexample: with highest published revision `H = 0` and stored
checkpoint `R = 0` (so `H ≤ R`), the `-1` trick makes the scan non-empty:
revision 0 is scanned and returned, contradicting "the scan returns an
empty mapping". -/
theorem scan_not_empty_when_up_to_date_counterexample :
    envC3.lastRevision "c" ≤ 0 ∧
    get_charmstore_revisions envC3 "c" 0 1 =
      some [(0, { sha := some "ab", user := none, repo := none, release := none })] := by
  constructor
  · decide
  · rfl

/-- C3 (amended): for every package whose highest published revision `H`
satisfies `1 ≤ H ≤ R` where `R` is the stored checkpoint, the scan
returns the empty mapping and the run leaves the whole state — in
particular `last_checked_revision` — unchanged.  (The claim as frozen
fails at `H = 0`, where the `-1` trick re-scans revision 0.) -/
theorem scan_empty_when_up_to_date (env : Env) (fuel : Nat) (st : RunState)
    (charm : String) (R : Nat) (revs : List (Nat × RevisionRecord))
    (h1 : 1 ≤ env.lastRevision charm) (hR : env.lastRevision charm ≤ R)
    (hv : storeGet st.memory charm = some (.entry (some R) revs)) :
    get_charmstore_revisions env charm (R : Int) fuel = some [] ∧
    processCharm env fuel st charm = .ok st := by
  have hz : ¬ env.lastRevision charm = 0 := by omega
  have hscan : get_charmstore_revisions env charm (R : Int) fuel = some [] := by
    simp only [get_charmstore_revisions, if_neg hz]
    rw [revRange_eq_nil (by exact_mod_cast hR)]
    rfl
  refine ⟨hscan, ?_⟩
  simp only [processCharm, hv, Option.getD_some, Option.getD_some, hscan, List.isEmpty_nil]
  rfl

/-- Witness for C3 (amended): a concrete up-to-date package. -/
theorem scan_empty_when_up_to_date_witness :
    get_charmstore_revisions envC1 "c" (3 : Nat) 1 = some [] ∧
    processCharm envC1 1 ⟨[("c", .entry (some 3) [])], [("c", .entry (some 3) [])]⟩ "c" =
      .ok ⟨[("c", .entry (some 3) [])], [("c", .entry (some 3) [])]⟩ :=
  scan_empty_when_up_to_date envC1 1 _ "c" 3 [] (by decide) (by decide) rfl

/-! ## C4: bounded retry on listing calls -/

/-- C4: when the file-listing fetch times out on all of the 3 budgeted
attempts for revision `V`, the listing loop reports `V` absent from the
result (`some none`, not a divergence), and scanning a candidate list
headed by `V` proceeds exactly as scanning the remaining (lower)
revisions. -/
theorem retry_exhaustion (env : Env) (charm : String) (V : Nat) (fuel : Nat)
    (h : ∀ a, a < 3 → env.listFiles charm V a = .serverError) :
    listingLoop env charm V fuel 0 3 = some none ∧
    ∀ rest, scanList env charm fuel (V :: rest) = scanList env charm fuel rest := by
  have hloop : listingLoop env charm V fuel 0 3 = some none := by
    simp only [listingLoop, h 0 (by omega), h 1 (by omega), h 2 (by omega)]
  refine ⟨hloop, fun rest => ?_⟩
  simp only [scanList, hloop]

/-- Witness for C4: the always-timing-out registry. -/
theorem retry_exhaustion_witness :
    listingLoop envTimeout "c" 3 1 0 3 = some none ∧
    ∀ rest, scanList envTimeout "c" 1 (3 :: rest) = scanList envTimeout "c" 1 rest :=
  retry_exhaustion envTimeout "c" 3 1 (fun _ _ => rfl)

/-! ## C5: the join -/

/-- C5: the join sets `release` on a record exactly when its `sha` equals
some key of the resolved mapping, taking the first match in iteration
order; and on the spec's concrete example the persisted result gives
revision 5 `release = "stable/20.04"` and leaves revision 6 without a
`release`. -/
theorem join_sets_release_iff_sha_matches
    (hashes : List (String × String)) (rd : RevisionRecord) (s : String)
    (h : rd.sha = some s) :
    joinRecord hashes rd =
      .ok (match hashes.find? (fun p => p.1 = s) with
        | some q => { rd with release := some q.2 }
        | none => rd) ∧
    persistRevisions [("abc", "stable/20.04"), ("xyz", "stable/21.04")]
      [(5, { sha := some "abc" }), (6, { sha := some "def" })] [] =
      .ok [(5, { sha := some "abc", release := some "stable/20.04" }),
           (6, { sha := some "def" })] := by
  refine ⟨?_, by rfl⟩
  obtain ⟨shaF, userF, repoF, relF⟩ := rd
  have h' : shaF = some s := h
  subst h'
  induction hashes with
  | nil => rfl
  | cons q rest ih =>
    obtain ⟨k, b⟩ := q
    by_cases hk : s = k
    · subst hk
      simp [joinRecord, List.find?]
    · have hks : decide (k = s) = false := by simp [Ne.symm hk]
      simp only [joinRecord, if_neg hk, List.find?, hks]
      exact ih

/-- Witness for C5 at the spec's example record for revision 5. -/
theorem join_sets_release_iff_sha_matches_witness :
    joinRecord [("abc", "stable/20.04"), ("xyz", "stable/21.04")]
        { sha := some "abc" } =
      .ok ({ sha := some "abc", release := some "stable/20.04" } : RevisionRecord) := by
  have h := join_sets_release_iff_sha_matches
    [("abc", "stable/20.04"), ("xyz", "stable/21.04")] { sha := some "abc" } "abc" rfl
  simpa using h.1

/-! ## C9: the unbounded `repo-info` fetch loop -/

/-- C9 counterexample: the loop guard is `while not repo_info`, i.e. the
truthiness of the fetched text.  Against a registry whose content fetch
always succeeds with empty text, the very first fetch succeeds yet the
loop never terminates — so "terminates exactly when a fetch succeeds" is
false as stated. -/
theorem fetch_loop_succeeds_but_spins :
    (fun _ : Nat => FetchFileResult.ok "") 0 = FetchFileResult.ok "" ∧
    ∀ fuel start, fetchLoop (fun _ => FetchFileResult.ok "") start fuel = none := by
  refine ⟨rfl, fun fuel => ?_⟩
  induction fuel with
  | zero => intro start; rfl
  | succ n ih =>
    intro start
    simp only [fetchLoop, if_pos rfl]
    exact ih (start + 1)

/-- C9 (amended): the content-fetch loop retries on transient server
error and on a successful fetch of empty text, with no bound on the
number of attempts; it terminates exactly when some fetch succeeds with
non-empty contents. -/
theorem fetch_loop_terminates_iff (resp : Nat → FetchFileResult) :
    (∃ fuel t, fetchLoop resp 0 fuel = some t) ↔
      (∃ n t, resp n = .ok t ∧ t ≠ "") := by
  constructor
  · rintro ⟨fuel, t, hf⟩
    have key : ∀ fuel start t, fetchLoop resp start fuel = some t →
        ∃ n, resp n = .ok t ∧ t ≠ "" := by
      intro fuel
      induction fuel with
      | zero => intro start t hst; cases hst
      | succ m ih =>
        intro start t hst
        simp only [fetchLoop] at hst
        cases hr : resp start with
        | serverError => rw [hr] at hst; exact ih _ _ hst
        | ok u =>
          rw [hr] at hst
          dsimp only at hst
          by_cases hu : u = ""
          · rw [if_pos hu] at hst; exact ih _ _ hst
          · rw [if_neg hu] at hst
            exact ⟨start, by rw [hr, Option.some_inj.mp hst], by
              rw [← Option.some_inj.mp hst]; exact hu⟩
    exact (key fuel 0 t hf).imp (fun n hn => ⟨t, hn⟩)
  · rintro ⟨n, t, hr, ht⟩
    have key : ∀ k start, resp (start + k) = .ok t →
        ∃ u, fetchLoop resp start (k + 1) = some u := by
      intro k
      induction k with
      | zero =>
        intro start hst
        rw [Nat.add_zero] at hst
        cases hu : resp start with
        | serverError => rw [hu] at hst; cases hst
        | ok u =>
          rw [hu] at hst
          have : u = t := by injection hst
          subst this
          exact ⟨u, by simp only [fetchLoop, hu, if_neg ht]⟩
      | succ m ih =>
        intro start hst
        cases hu : resp start with
        | serverError =>
          obtain ⟨u, hu2⟩ := ih (start + 1) (by rw [← hst]; ring_nf)
          exact ⟨u, by simp only [fetchLoop, hu]; exact hu2⟩
        | ok v =>
          by_cases hv : v = ""
          · obtain ⟨u, hu2⟩ := ih (start + 1) (by rw [← hst]; ring_nf)
            exact ⟨u, by simp only [fetchLoop, hu, if_pos hv]; exact hu2⟩
          · exact ⟨v, by simp only [fetchLoop, hu, if_neg hv]⟩
    obtain ⟨u, hu⟩ := key n 0 (by simpa using hr)
    exact ⟨n + 1, u, hu⟩

/-! ## C6: provenance parsing -/

/-- C6: once a revision's `repo-info` text is fetched, the built record
is exactly the parse of that text — a record is produced only when a
commit sha is found (no sha: the revision is skipped with `some none`,
never an owner/repo without commit; sha without remote match: the commit
is recorded alone).  On the spec's example text the parser extracts
`sha = "1a2b3c4d"`, `owner = "canonical"`, `repo_name =
"example-charm"`. -/
theorem provenance_parsing (env : Env) (charm : String) (rev fuel : Nat)
    (files : List String) (text : String)
    (h1 : env.listFiles charm rev 0 = .ok files)
    (h2 : files.contains "repo-info" = true)
    (h3 : fetchLoop (env.fetchRepoInfo charm rev) 0 fuel = some text) :
    listingLoop env charm rev fuel 0 3 =
      some ((parseRepoInfo text).map (fun p =>
        { sha := some p.1, user := p.2.map Prod.fst, repo := p.2.map Prod.snd,
          release := none })) ∧
    parseRepoInfo
        "commit-sha-1: 1a2b3c4d\nremote: https://github.com/canonical/example-charm\n" =
      some ("1a2b3c4d", some ("canonical", "example-charm")) ∧
    parseRepoInfo "commit-sha-1: abc\n" = some ("abc", none) ∧
    parseRepoInfo "no commit identifier at all" = none := by
  refine ⟨?_, by rfl, by rfl, by rfl⟩
  simp only [listingLoop, h1, if_pos h2, h3]
  cases hp : parseRepoInfo text with
  | none => rfl
  | some p => obtain ⟨sha, userRepo⟩ := p; rfl

/-- Witness for C6 on a concrete registry: revision 1 of `envC1` parses
to a commit with no remote, and revision 1 of `envFull` to a commit with
owner and repo. -/
theorem provenance_parsing_witness :
    listingLoop envC1 "c" 1 1 0 3 =
      some (some { sha := some "ab", user := none, repo := none, release := none }) := by
  have h := provenance_parsing envC1 "c" 1 1 ["repo-info"] "commit-sha-1: ab\n"
    rfl rfl rfl
  rw [h.1]
  rfl

/-! ## C2: which branch a shared commit is associated with -/

/-- Lookup after the in-place overwrite of every pair keyed `k`. -/
theorem odLookup_overwrite (m : List (String × String)) (k v k' : String) :
    odLookup (m.map (fun p => if p.1 = k then (k, v) else p)) k' =
      if k' = k then (if m.any (fun p => p.1 = k) then some v else none)
      else odLookup m k' := by
  induction m with
  | nil => by_cases h : k' = k <;> simp [h, odLookup]
  | cons p rest ih =>
    obtain ⟨pk, pv⟩ := p
    simp only [List.map_cons, List.any_cons]
    by_cases hpk : pk = k
    · subst hpk
      simp only [if_pos rfl, odLookup]
      by_cases h : pk = k'
      · subst h
        simp
      · have h1 : ¬ (k' = pk) := fun he => h he.symm
        rw [if_neg h, ih]
        by_cases h2 : k' = pk <;> simp [h, h1, h2]
    · simp only [if_neg hpk, odLookup]
      by_cases h : pk = k'
      · subst h
        have h1 : ¬ (pk = k) := hpk
        simp [h1]
      · rw [if_neg h, if_neg h, ih]
        have hd : (decide (pk = k)) = false := by simp [hpk]
        by_cases h2 : k' = k
        · rw [if_pos h2, if_pos h2]
          simp only [hd, Bool.false_or]
        · rw [if_neg h2, if_neg h2]

/-- Lookup after appending a fresh binding for a key the dict does not
hold. -/
theorem odLookup_append_fresh (m : List (String × String)) (k v k' : String)
    (hnone : m.any (fun p => p.1 = k) = false) :
    odLookup (m ++ [(k, v)]) k' = if k' = k then some v else odLookup m k' := by
  induction m with
  | nil =>
    by_cases h : k' = k
    · subst h
      simp [odLookup]
    · have h1 : ¬ (k = k') := fun he => h he.symm
      simp [odLookup, h, h1]
  | cons p rest ih =>
    obtain ⟨pk, pv⟩ := p
    simp only [List.any_cons, Bool.or_eq_false_iff, decide_eq_false_iff_not] at hnone
    obtain ⟨hpk, hrest⟩ := hnone
    simp only [List.cons_append, odLookup]
    by_cases h : pk = k'
    · subst h
      have h1 : ¬ (pk = k) := hpk
      simp [h1]
    · rw [if_neg h, if_neg h]
      exact ih hrest

/-- Lookup after an ordered-dict insertion: the inserted key now maps to
the new value, other keys are untouched. -/
theorem odLookup_odInsert (m : List (String × String)) (k v k' : String) :
    odLookup (odInsert m k v) k' = if k' = k then some v else odLookup m k' := by
  unfold odInsert
  by_cases hany : m.any (fun p => p.1 = k)
  · rw [if_pos hany, odLookup_overwrite, hany]
    simp
  · rw [if_neg hany]
    exact odLookup_append_fresh m k v k' (Bool.eq_false_iff.mpr hany)

/-- Folding one branch's commit window into the dict: a key ends up
mapped to this branch exactly when it lies in the window; other keys keep
their previous binding. -/
theorem odLookup_window_fold (b k : String) (ws : List String)
    (acc : List (String × String)) :
    odLookup (ws.foldl (fun cs sha => odInsert cs sha b) acc) k =
      if k ∈ ws then some b else odLookup acc k := by
  induction ws generalizing acc with
  | nil => simp
  | cons w ws' ih =>
    simp only [List.foldl_cons, ih (odInsert acc w b), odLookup_odInsert,
      List.mem_cons]
    by_cases h1 : k ∈ ws'
    · simp [h1]
    · by_cases h2 : k = w <;> simp [h1, h2]

/-- A non-empty list keeps its last element when consed onto. -/
theorem getLast?_cons_of_some {α : Type} {l : List α} {y : α} (a : α)
    (h : l.getLast? = some y) : (a :: l).getLast? = some y := by
  cases l with
  | nil => cases h
  | cons x xs => rw [List.getLast?_cons_cons]; exact h

/-- C2 (amended): in the resolved commit → branch mapping, a commit that
lies in the lookback window of at least one stable branch is associated
with the branch encountered LAST in branch-enumeration order among those
whose window contains it (the ordered-dict assignment overwrites the
value on every later branch), not the first. -/
theorem stable_sha_dict_last_branch_wins (env : Env) (user repo k : String) :
    odLookup (stable_sha_dict env user repo) k =
      ((env.branches user repo).filter (fun b => isStableBranch b &&
        decide (k ∈ (env.commits user repo b).take STABLE_COMMIT_LOOKBACK))).getLast? := by
  unfold stable_sha_dict
  have main : ∀ (bs : List String) (acc : List (String × String)),
      odLookup (bs.foldl (fun commits branch =>
        if isStableBranch branch then
          ((env.commits user repo branch).take STABLE_COMMIT_LOOKBACK).foldl
            (fun cs sha => odInsert cs sha branch) commits
        else commits) acc) k =
      match (bs.filter (fun b => isStableBranch b &&
          decide (k ∈ (env.commits user repo b).take STABLE_COMMIT_LOOKBACK))).getLast? with
      | some b => some b
      | none => odLookup acc k := by
    intro bs
    induction bs with
    | nil => intro acc; rfl
    | cons b bs' ih =>
      intro acc
      simp only [List.foldl_cons, List.filter_cons]
      rw [ih]
      have hstep : odLookup (if isStableBranch b then
          ((env.commits user repo b).take STABLE_COMMIT_LOOKBACK).foldl
            (fun cs sha => odInsert cs sha b) acc
        else acc) k =
          if isStableBranch b &&
              decide (k ∈ (env.commits user repo b).take STABLE_COMMIT_LOOKBACK) then
            some b
          else odLookup acc k := by
        by_cases hs : isStableBranch b
        · rw [if_pos hs, odLookup_window_fold]
          by_cases hm : k ∈ (env.commits user repo b).take STABLE_COMMIT_LOOKBACK <;>
            simp [hs, hm]
        · simp [hs]
      by_cases hb : (isStableBranch b &&
          decide (k ∈ (env.commits user repo b).take STABLE_COMMIT_LOOKBACK)) = true
      · rw [if_pos hb]
        cases hlast : (bs'.filter (fun c => isStableBranch c &&
            decide (k ∈ (env.commits user repo c).take STABLE_COMMIT_LOOKBACK))).getLast? with
        | none =>
          have : bs'.filter (fun c => isStableBranch c &&
              decide (k ∈ (env.commits user repo c).take STABLE_COMMIT_LOOKBACK)) = [] := by
            rwa [List.getLast?_eq_none_iff] at hlast
          simp [this, hstep, hb]
        | some y =>
          rw [getLast?_cons_of_some b hlast]
      · rw [if_neg hb]
        cases hlast : (bs'.filter (fun c => isStableBranch c &&
            decide (k ∈ (env.commits user repo c).take STABLE_COMMIT_LOOKBACK))).getLast? with
        | none => simp [hstep, hb]
        | some y => rfl
  rw [main]
  cases ((env.branches user repo).filter (fun b => isStableBranch b &&
      decide (k ∈ (env.commits user repo b).take STABLE_COMMIT_LOOKBACK))).getLast? <;> rfl

/-- C2 counterexample: commit `c1` lies in the 20-commit window of both
stable branches, `stable/a` is enumerated first, and the mapping
associates `c1` with `stable/b` — the branch encountered last, not
first. -/
theorem stable_sha_dict_first_branch_counterexample :
    envC2.branches "u" "r" = ["stable/a", "stable/b"] ∧
    "c1" ∈ (envC2.commits "u" "r" "stable/a").take STABLE_COMMIT_LOOKBACK ∧
    "c1" ∈ (envC2.commits "u" "r" "stable/b").take STABLE_COMMIT_LOOKBACK ∧
    isStableBranch "stable/a" = true ∧
    isStableBranch "stable/b" = true ∧
    stable_sha_dict envC2 "u" "r" = [("c1", "stable/b")] ∧
    odLookup (stable_sha_dict envC2 "u" "r") "c1" ≠ some "stable/a" := by
  refine ⟨rfl, by decide, by decide, by decide, by decide, rfl, by decide⟩

/-! ## C1: a non-empty batch with no owner information -/

/-- C1 counterexample: against `envC1` the scan of charm `c` returns a
non-empty result whose single record has a `sha` and no owner, yet the
run persists no revision record at all — the stored revisions mapping
stays empty and only `last_revision` advances to 1.  This contradicts
"every scanned revision record is persisted". -/
theorem no_owner_batch_counterexample :
    get_charmstore_revisions envC1 "c" 0 1 =
      some [(1, { sha := some "ab", user := none, repo := none, release := none })] ∧
    runMain envC1 1 fileC1 = .ok [("c", .entry (some 1) [])] := by
  exact ⟨rfl, rfl⟩

/-- C1 (amended): when a non-empty scan result contains no revision with
an `owner`/`repo_name` pair, the reconciler does NOT persist the scanned
records: it leaves the stored revisions mapping untouched and only
advances `last_checked_revision` to the maximum scanned revision (and
dumps the store). -/
theorem no_owner_batch_only_advances (env : Env) (fuel : Nat) (st : RunState)
    (charm : String) (lr : Option Nat) (revs : List (Nat × RevisionRecord))
    (D : List (Nat × RevisionRecord))
    (hv : storeGet st.memory charm = some (.entry lr revs))
    (hs : get_charmstore_revisions env charm ((lr.getD 0 : Nat) : Int) fuel = some D)
    (hne : D ≠ [])
    (hnouser : ∀ p ∈ D, (p : Nat × RevisionRecord).2.user = none) :
    processCharm env fuel st charm =
      .ok ⟨storeSet st.memory charm (.entry (some (maxRevision D)) revs),
           storeSet st.memory charm (.entry (some (maxRevision D)) revs)⟩ := by
  have hfu := findUserRepo_none hnouser
  cases D with
  | nil => exact absurd rfl hne
  | cons hd tl =>
    simp only [processCharm, hv, Option.getD_some, hs, List.isEmpty_cons, hfu]
    rfl

/-- Witness for C1 (amended) at the concrete `envC1` run. -/
theorem no_owner_batch_only_advances_witness :
    processCharm envC1 1 ⟨fileC1, fileC1⟩ "c" =
      .ok ⟨[("c", .entry (some 1) [])], [("c", .entry (some 1) [])]⟩ := by
  have h := no_owner_batch_only_advances envC1 1 ⟨fileC1, fileC1⟩ "c" (some 0) []
    [(1, { sha := some "ab", user := none, repo := none, release := none })]
    rfl rfl (by simp) (by decide)
  simpa using h

/-! ## C10: record shape invariant and absence of `KeyError` -/

/-- Any record produced by the listing loop has a `sha`, and `user` and
`repo` present together or absent together. -/
theorem listingLoop_record_shape (env : Env) (charm : String) (rev fuel : Nat) :
    ∀ attempt retry rd, listingLoop env charm rev fuel attempt retry = some (some rd) →
      rd.sha.isSome ∧ (rd.user.isSome ↔ rd.repo.isSome) := by
  intro attempt retry
  induction retry generalizing attempt with
  | zero => intro rd h; cases h
  | succ n ih =>
    intro rd h
    simp only [listingLoop] at h
    cases hr : env.listFiles charm rev attempt with
    | entityNotFound => rw [hr] at h; cases h
    | interactionError => rw [hr] at h; cases h
    | serverError => rw [hr] at h; exact ih _ _ h
    | ok files =>
      rw [hr] at h
      dsimp only at h
      by_cases hc : files.contains "repo-info"
      · rw [if_pos hc] at h
        cases hf : fetchLoop (env.fetchRepoInfo charm rev) 0 fuel with
        | none => rw [hf] at h; cases h
        | some text =>
          rw [hf] at h
          dsimp only at h
          cases hp : parseRepoInfo text with
          | none => rw [hp] at h; cases h
          | some p =>
            rw [hp] at h
            obtain ⟨sha, userRepo⟩ := p
            dsimp only at h
            have : rd = { sha := some sha, user := userRepo.map Prod.fst,
                          repo := userRepo.map Prod.snd, release := none } := by
              have h2 := Option.some_inj.mp h
              exact (Option.some_inj.mp h2).symm
            subst this
            refine ⟨rfl, ?_⟩
            cases userRepo <;> simp
      · rw [if_neg hc] at h; cases h

/-- The record-shape invariant propagated over a candidate list. -/
theorem scanList_record_shape (env : Env) (charm : String) (fuel : Nat) :
    ∀ L D, scanList env charm fuel L = some D →
      ∀ p ∈ D, (p : Nat × RevisionRecord).2.sha.isSome ∧
        (p.2.user.isSome ↔ p.2.repo.isSome) := by
  intro L
  induction L with
  | nil =>
    intro D h p hp
    cases h
    cases hp
  | cons rev rest ih =>
    intro D h p hp
    simp only [scanList] at h
    cases hl : listingLoop env charm rev fuel 0 3 with
    | none => rw [hl] at h; cases h
    | some o =>
      rw [hl] at h
      cases o with
      | none => exact ih D h p hp
      | some rd =>
        dsimp only at h
        rcases Option.map_eq_some'.mp h with ⟨tail, htail, hD⟩
        subst hD
        rcases List.mem_cons.mp hp with hph | hpt
        · subst hph
          exact listingLoop_record_shape env charm rev fuel 0 3 rd hl
        · exact ih tail htail p hpt

/-- A record with a `sha` key never raises in the join. -/
theorem joinRecord_ok_of_sha (hashes : List (String × String))
    (rd : RevisionRecord) (h : rd.sha.isSome) :
    ∃ r', joinRecord hashes rd = .ok r' := by
  induction hashes with
  | nil => exact ⟨rd, rfl⟩
  | cons q rest ih =>
    obtain ⟨k, b⟩ := q
    cases hs : rd.sha with
    | none => rw [hs] at h; cases h
    | some s =>
      simp only [joinRecord, hs]
      by_cases he : s = k
      · exact ⟨_, by rw [if_pos he]⟩
      · rw [if_neg he]
        exact ih

/-- The owner search never raises when `user` and `repo` come in
pairs. -/
theorem findUserRepo_ok (D : List (Nat × RevisionRecord))
    (h : ∀ p ∈ D, (p : Nat × RevisionRecord).2.sha.isSome ∧
      (p.2.user.isSome ↔ p.2.repo.isSome)) :
    ∃ o, findUserRepo D = .ok o := by
  induction D with
  | nil => exact ⟨none, rfl⟩
  | cons p rest ih =>
    obtain ⟨rev, rd⟩ := p
    simp only [findUserRepo]
    cases hu : rd.user with
    | none => exact ih (fun q hq => h q (List.mem_cons_of_mem _ hq))
    | some u =>
      have hiff := (h (rev, rd) (List.mem_cons_self _ _)).2
      rw [hu] at hiff
      simp only [Option.isSome_some, true_iff] at hiff
      cases hr : rd.repo with
      | none => rw [hr] at hiff; cases hiff
      | some r => exact ⟨some (u, r), rfl⟩

/-- The persist loop never raises when every scanned record has a
`sha`. -/
theorem persistRevisions_ok (hashes : List (String × String)) :
    ∀ D revs, (∀ p ∈ D, (p : Nat × RevisionRecord).2.sha.isSome) →
      ∃ revs2, persistRevisions hashes D revs = .ok revs2 := by
  intro D
  induction D with
  | nil => exact fun revs _ => ⟨revs, rfl⟩
  | cons p rest ih =>
    intro revs h
    obtain ⟨rev, rd⟩ := p
    obtain ⟨joined, hj⟩ := joinRecord_ok_of_sha hashes rd (h (rev, rd) (List.mem_cons_self _ _))
    simp only [persistRevisions, hj]
    exact ih _ (fun q hq => h q (List.mem_cons_of_mem _ hq))

/-- One charm iteration can only fail by divergence, never by
`KeyError`. -/
theorem processCharm_no_keyError (env : Env) (fuel : Nat) (st : RunState)
    (charm : String) : processCharm env fuel st charm ≠ .error .keyError := by
  unfold processCharm
  cases hs : get_charmstore_revisions env charm
      ((match (storeGet st.memory charm).getD .legacy with
        | .legacy => 0
        | .entry lr _ => lr.getD 0 : Nat) : Int) fuel with
  | none => simp [hs]
  | some D =>
    have hshape := scanList_record_shape env charm fuel _ D hs
    by_cases hD : D.isEmpty
    · simp [hs, hD]
    · obtain ⟨o, ho⟩ := findUserRepo_ok D hshape
      cases o with
      | none => simp [hs, hD, ho]
      | some ur =>
        obtain ⟨u, r⟩ := ur
        obtain ⟨revs2, hp⟩ := persistRevisions_ok (stable_sha_dict env u r) D
          (match (storeGet st.memory charm).getD .legacy with
           | .legacy => []
           | .entry _ revs => revs)
          (fun p hp => (hshape p hp).1)
        simp [hs, hD, ho, hp]

/-- The whole run can only fail by divergence, never by `KeyError`. -/
theorem processList_no_keyError (env : Env) (fuel : Nat) :
    ∀ cs st, processList env fuel st cs ≠ .error .keyError := by
  intro cs
  induction cs with
  | nil => intro st hcon; cases hcon
  | cons c rest ih =>
    intro st
    simp only [processList]
    cases hp : processCharm env fuel st c with
    | error e =>
      cases e with
      | diverged => intro hcon; cases hcon
      | keyError => exact absurd hp (processCharm_no_keyError env fuel st c)
    | ok st2 => exact ih st2

/-- C10: every record in the scanner's result contains a `sha` entry and
has `user`/`repo` either both present or both absent; consequently the
reconciler's join never fails on a missing key — a run never raises
`KeyError`. -/
theorem scan_records_well_shaped_no_keyError :
    (∀ (env : Env) (charm : String) (lcr : Int) (fuel : Nat)
        (D : List (Nat × RevisionRecord)),
      get_charmstore_revisions env charm lcr fuel = some D →
        ∀ p ∈ D, (p : Nat × RevisionRecord).2.sha.isSome ∧
          (p.2.user.isSome ↔ p.2.repo.isSome)) ∧
    (∀ (env : Env) (fuel : Nat) (file : Store),
      runMain env fuel file ≠ .error .keyError) := by
  constructor
  · intro env charm lcr fuel D h
    exact scanList_record_shape env charm fuel _ D h
  · intro env fuel file
    unfold runMain
    cases hp : processList env fuel ⟨file, file⟩ (sortedStrings (file.map Prod.fst)) with
    | error e =>
      cases e with
      | diverged => intro hcon; cases hcon
      | keyError => exact absurd hp (processList_no_keyError env fuel _ _)
    | ok st => intro hcon; cases hcon

/-- Witness for C10 at a concrete environment exercising the full
pipeline. -/
theorem scan_records_well_shaped_no_keyError_witness :
    ({ sha := some "ab", user := some "u", repo := some "r",
       release := none } : RevisionRecord).sha.isSome = true ∧
    runMain envFull 1 fileC1 ≠ .error .keyError := by
  have h := scan_records_well_shaped_no_keyError
  have h1 := h.1 envFull "c" 0 1
    [(1, { sha := some "ab", user := some "u", repo := some "r", release := none })] rfl
    (1, { sha := some "ab", user := some "u", repo := some "r", release := none })
    (List.mem_singleton.mpr rfl)
  exact ⟨h1.1, h.2 envFull 1 fileC1⟩

/-! ## C8 groundwork: store algebra -/

/-- Two successive writes at one key collapse to the last. -/
theorem storeSet_storeSet (m : Store) (c : String) (a b : StoredValue) :
    storeSet (storeSet m c a) c b = storeSet m c b := by
  induction m with
  | nil => rfl
  | cons p rest ih =>
    simp only [storeSet, List.map_cons]
    by_cases h : p.1 = c
    · simp only [h, if_pos rfl]
      simpa [storeSet] using ih
    · simp only [if_neg h, if_neg h]
      simpa [storeSet] using ih

/-- A write at one key leaves other keys unread. -/
theorem storeGet_storeSet_ne (m : Store) (c c' : String) (v : StoredValue)
    (h : c' ≠ c) : storeGet (storeSet m c v) c' = storeGet m c' := by
  induction m with
  | nil => rfl
  | cons p rest ih =>
    simp only [storeSet, List.map_cons, storeGet]
    by_cases hp : p.1 = c
    · have h1 : ¬ (c = c') := fun he => h he.symm
      rw [if_pos hp]
      have h2 : ¬ (p.1 = c') := by rw [hp]; exact h1
      simp only [if_neg h1, if_neg h2]
      exact ih
    · rw [if_neg hp]
      by_cases hq : p.1 = c'
      · simp only [if_pos hq]
      · simp only [if_neg hq]
        exact ih

/-- Reading back the key just written. -/
theorem storeGet_storeSet_self (m : Store) (c : String) (v : StoredValue) :
    storeGet (storeSet m c v) c = (storeGet m c).map (fun _ => v) := by
  induction m with
  | nil => rfl
  | cons p rest ih =>
    simp only [storeSet, List.map_cons, storeGet]
    by_cases hp : p.1 = c
    · simp [hp]
    · simp only [if_neg hp]
      exact ih

/-- Writing the value a key already holds changes nothing, provided keys
are not duplicated. -/
theorem storeSet_eq_self (m : Store) (c : String) (v : StoredValue)
    (hnd : (m.map Prod.fst).Nodup) (h : storeGet m c = some v) :
    storeSet m c v = m := by
  induction m with
  | nil => rfl
  | cons p rest ih =>
    simp only [List.map_cons, List.nodup_cons] at hnd
    simp only [storeGet] at h
    simp only [storeSet, List.map_cons]
    by_cases hp : p.1 = c
    · rw [if_pos hp] at h ⊢
      have hpv : p = (c, v) := by
        obtain ⟨p1, p2⟩ := p
        simp only at hp
        subst hp
        simpa using Option.some_inj.mp h
      have habs : c ∉ rest.map Prod.fst := by rw [← hp]; exact hnd.1
      have hrest : ∀ q ∈ rest, (fun q => if q.1 = c then (c, v) else q) q = q := by
        intro q hq
        simp only
        rw [if_neg]
        intro he
        exact habs (he ▸ List.mem_map_of_mem Prod.fst hq)
      rw [hpv, List.map_congr_left hrest]
      simp
    · rw [if_neg hp] at h ⊢
      have := ih hnd.2 h
      simp only [storeSet] at this
      rw [this]

/-- Writes do not change the key list. -/
theorem storeSet_keys (m : Store) (c : String) (v : StoredValue) :
    (storeSet m c v).map Prod.fst = m.map Prod.fst := by
  induction m with
  | nil => rfl
  | cons p rest ih =>
    by_cases hp : p.1 = c
    · show ((if p.1 = c then (c, v) else p) :: storeSet rest c v).map Prod.fst =
        (p :: rest).map Prod.fst
      rw [if_pos hp]
      show c :: (storeSet rest c v).map Prod.fst = p.1 :: rest.map Prod.fst
      rw [ih, hp]
    · show ((if p.1 = c then (c, v) else p) :: storeSet rest c v).map Prod.fst =
        (p :: rest).map Prod.fst
      rw [if_neg hp]
      show p.1 :: (storeSet rest c v).map Prod.fst = p.1 :: rest.map Prod.fst
      rw [ih]

/-- A key present in the key list always reads back a value. -/
theorem storeGet_isSome_of_mem (m : Store) (c : String)
    (h : c ∈ m.map Prod.fst) : (storeGet m c).isSome := by
  induction m with
  | nil => cases h
  | cons p rest ih =>
    simp only [List.map_cons, List.mem_cons] at h
    simp only [storeGet]
    by_cases hp : p.1 = c
    · rw [if_pos hp]; rfl
    · rw [if_neg hp]
      rcases h with h | h
      · exact absurd h.symm hp
      · exact ih h

/-! ## C8 groundwork: revision-record algebra -/

/-- Retrying an `orElse` with the same first component collapses. -/
theorem orElse_orElse_self {α : Type} (x y : Option α) :
    x.orElse (fun _ => x.orElse (fun _ => y)) = x.orElse (fun _ => y) := by
  cases x <;> rfl

/-- An `orElse` against itself is itself. -/
theorem orElse_self {α : Type} (x : Option α) : x.orElse (fun _ => x) = x := by
  cases x <;> rfl

/-- `dict.update` with the same update twice is the same as once. -/
theorem updateRecord_idem (a b : RevisionRecord) :
    updateRecord (updateRecord a b) b = updateRecord a b := by
  unfold updateRecord
  dsimp only
  rw [orElse_orElse_self, orElse_orElse_self, orElse_orElse_self, orElse_orElse_self]

/-- `dict.update` of a record with itself is the identity. -/
theorem updateRecord_self (b : RevisionRecord) : updateRecord b b = b := by
  unfold updateRecord
  rw [orElse_self, orElse_self, orElse_self, orElse_self]

/-- Read after overwrite of every pair keyed `k` in a revision list. -/
theorem revsGet_overwrite (l : List (Nat × RevisionRecord)) (k : Nat)
    (v : RevisionRecord) (k' : Nat) :
    revsGet (l.map (fun p => if p.1 = k then (k, v) else p)) k' =
      if k' = k then (if l.any (fun p => p.1 = k) then some v else none)
      else revsGet l k' := by
  induction l with
  | nil => by_cases h : k' = k <;> simp [h, revsGet]
  | cons p rest ih =>
    obtain ⟨pk, pv⟩ := p
    simp only [List.map_cons, List.any_cons]
    by_cases hpk : pk = k
    · subst hpk
      simp only [if_pos rfl, revsGet]
      by_cases h : pk = k'
      · subst h
        simp
      · have h1 : ¬ (k' = pk) := fun he => h he.symm
        rw [if_neg h, ih]
        by_cases h2 : k' = pk <;> simp [h, h1, h2]
    · simp only [if_neg hpk, revsGet]
      by_cases h : pk = k'
      · subst h
        have h1 : ¬ (pk = k) := hpk
        simp [h1]
      · rw [if_neg h, if_neg h, ih]
        have hd : (decide (pk = k)) = false := by simp [hpk]
        by_cases h2 : k' = k
        · rw [if_pos h2, if_pos h2]
          simp only [hd, Bool.false_or]
        · rw [if_neg h2, if_neg h2]

/-- Read after appending a fresh binding for an absent revision key. -/
theorem revsGet_append_fresh (l : List (Nat × RevisionRecord)) (k : Nat)
    (v : RevisionRecord) (k' : Nat)
    (hnone : l.any (fun p => p.1 = k) = false) :
    revsGet (l ++ [(k, v)]) k' = if k' = k then some v else revsGet l k' := by
  induction l with
  | nil =>
    by_cases h : k' = k
    · subst h
      simp [revsGet]
    · have h1 : ¬ (k = k') := fun he => h he.symm
      simp [revsGet, h, h1]
  | cons p rest ih =>
    obtain ⟨pk, pv⟩ := p
    simp only [List.any_cons, Bool.or_eq_false_iff, decide_eq_false_iff_not] at hnone
    obtain ⟨hpk, hrest⟩ := hnone
    simp only [List.cons_append, revsGet]
    by_cases h : pk = k'
    · subst h
      have h1 : ¬ (pk = k) := hpk
      simp [h1]
    · rw [if_neg h, if_neg h]
      exact ih hrest

/-- Read after a revision write: the written key reads the new value,
other keys are untouched. -/
theorem revsGet_revsSet (l : List (Nat × RevisionRecord)) (k : Nat)
    (v : RevisionRecord) (k' : Nat) :
    revsGet (revsSet l k v) k' = if k' = k then some v else revsGet l k' := by
  unfold revsSet
  by_cases hany : l.any (fun p => p.1 = k)
  · rw [if_pos hany, revsGet_overwrite, hany]
    simp
  · rw [if_neg hany]
    exact revsGet_append_fresh l k v k' (Bool.eq_false_iff.mpr hany)

/-- Membership after a revision write. -/
theorem mem_revsSet (l : List (Nat × RevisionRecord)) (k : Nat)
    (v : RevisionRecord) (q : Nat × RevisionRecord)
    (h : q ∈ revsSet l k v) : q = (k, v) ∨ (q ∈ l ∧ q.1 ≠ k) := by
  unfold revsSet at h
  by_cases hany : l.any (fun p => p.1 = k)
  · rw [if_pos hany] at h
    rcases List.mem_map.mp h with ⟨p, hp, hq⟩
    by_cases hpk : p.1 = k
    · rw [if_pos hpk] at hq
      exact Or.inl hq.symm
    · rw [if_neg hpk] at hq
      exact Or.inr ⟨hq ▸ hp, hq ▸ hpk⟩
  · rw [if_neg hany] at h
    rcases List.mem_append.mp h with h | h
    · refine Or.inr ⟨h, ?_⟩
      intro he
      exact hany (List.any_eq_true.mpr ⟨q, h, by simp [he]⟩)
    · exact Or.inl (List.mem_singleton.mp h)

/-- A pair with a different key survives a revision write. -/
theorem mem_revsSet_of_mem_ne (l : List (Nat × RevisionRecord)) (k : Nat)
    (v : RevisionRecord) (q : Nat × RevisionRecord)
    (hq : q ∈ l) (hne : q.1 ≠ k) : q ∈ revsSet l k v := by
  unfold revsSet
  by_cases hany : l.any (fun p => p.1 = k)
  · rw [if_pos hany]
    have : (fun p => if p.1 = k then (k, v) else p) q = q := by
      simp only
      rw [if_neg hne]
    exact this ▸ List.mem_map_of_mem _ hq
  · rw [if_neg hany]
    exact List.mem_append_left _ hq

/-- Writing a value every `k`-keyed pair already holds is the
identity (the key must be present, else an append happens). -/
theorem revsSet_eq_self (l : List (Nat × RevisionRecord)) (k : Nat)
    (v : RevisionRecord) (hall : ∀ p ∈ l, (p : Nat × RevisionRecord).1 = k → p.2 = v)
    (hany : l.any (fun p => p.1 = k) = true) : revsSet l k v = l := by
  unfold revsSet
  rw [if_pos hany]
  have : ∀ p ∈ l, (fun p => if p.1 = k then (k, v) else p) p = p := by
    intro p hp
    simp only
    by_cases hpk : p.1 = k
    · rw [if_pos hpk]
      obtain ⟨p1, p2⟩ := p
      simp only at hpk
      subst hpk
      exact congrArg (fun z => (p1, z)) (hall (p1, p2) hp rfl).symm
    · rw [if_neg hpk]
  rw [List.map_congr_left this]
  simp

/-- A successful read implies the key is present. -/
theorem any_of_revsGet_some (l : List (Nat × RevisionRecord)) (k : Nat)
    (x : RevisionRecord) (h : revsGet l k = some x) :
    l.any (fun p => p.1 = k) = true := by
  induction l with
  | nil => cases h
  | cons p rest ih =>
    simp only [revsGet] at h
    simp only [List.any_cons]
    by_cases hp : p.1 = k
    · simp [hp]
    · rw [if_neg hp] at h
      simp [ih h]

/-- When the key is present and every binding of it carries `x`, the read
gives `x`. -/
theorem revsGet_of_allkey (l : List (Nat × RevisionRecord)) (k : Nat)
    (x : RevisionRecord) (hany : l.any (fun p => p.1 = k) = true)
    (hall : ∀ p ∈ l, (p : Nat × RevisionRecord).1 = k → p.2 = x) :
    revsGet l k = some x := by
  induction l with
  | nil => cases hany
  | cons p rest ih =>
    simp only [revsGet]
    by_cases hp : p.1 = k
    · rw [if_pos hp, hall p (List.mem_cons_self _ _) hp]
    · rw [if_neg hp]
      simp only [List.any_cons] at hany
      rcases Bool.or_eq_true_iff.mp hany with h | h
      · exact absurd (of_decide_eq_true h) hp
      · exact ih h (fun q hq => hall q (List.mem_cons_of_mem _ hq))

/-- After a write, every binding of the written key carries the written
value. -/
theorem allkey_revsSet (l : List (Nat × RevisionRecord)) (k : Nat)
    (v : RevisionRecord) :
    ∀ p ∈ revsSet l k v, (p : Nat × RevisionRecord).1 = k → p.2 = v := by
  intro p hp hk
  rcases mem_revsSet l k v p hp with h | h
  · rw [h]
  · exact absurd hk h.2

/-- The key stays present after a write. -/
theorem any_revsSet_self (l : List (Nat × RevisionRecord)) (k : Nat)
    (v : RevisionRecord) : (revsSet l k v).any (fun p => p.1 = k) = true :=
  any_of_revsGet_some _ k v (by rw [revsGet_revsSet, if_pos rfl])

/-- The persist loop touches only the revision keys of its batch: for a
key outside the batch, both the all-bindings-equal property and presence
of the key are preserved. -/
theorem persistRevisions_preserves (hashes : List (String × String)) (k : Nat)
    (x : RevisionRecord) :
    ∀ (D : List (Nat × RevisionRecord)) (r r' : List (Nat × RevisionRecord)),
      persistRevisions hashes D r = .ok r' → k ∉ D.map Prod.fst →
      ((∀ p ∈ r, (p : Nat × RevisionRecord).1 = k → p.2 = x) →
        ∀ p ∈ r', (p : Nat × RevisionRecord).1 = k → p.2 = x) ∧
      (r.any (fun p => p.1 = k) = true → r'.any (fun p => p.1 = k) = true) := by
  intro D
  induction D with
  | nil =>
    intro r r' h hk
    cases h
    exact ⟨fun hall => hall, fun ha => ha⟩
  | cons q rest ih =>
    intro r r' h hk
    obtain ⟨rev, rd⟩ := q
    simp only [List.map_cons, List.mem_cons] at hk
    push_neg at hk
    obtain ⟨hkrev, hkrest⟩ := hk
    simp only [persistRevisions] at h
    cases hj : joinRecord hashes rd with
    | error e => rw [hj] at h; cases h
    | ok joined =>
      rw [hj] at h
      dsimp only at h
      set newVal := (match revsGet r rev with
        | some existing => updateRecord existing joined
        | none => joined) with hnv
      have hrec := ih (revsSet r rev newVal) r' h hkrest
      constructor
      · intro hall
        refine hrec.1 ?_
        intro p hp hpk
        rcases mem_revsSet r rev newVal p hp with he | he
        · exfalso
          apply hkrev
          rw [← hpk, he]
        · exact hall p he.1 hpk
      · intro hany
        refine hrec.2 ?_
        have : ∃ p ∈ r, (fun p => decide ((p : Nat × RevisionRecord).1 = k)) p = true :=
          List.any_eq_true.mp hany
        obtain ⟨p, hp, hpk⟩ := this
        refine List.any_eq_true.mpr ⟨p, ?_, hpk⟩
        refine mem_revsSet_of_mem_ne r rev newVal p hp ?_
        intro he
        apply hkrev
        rw [← he]
        exact (of_decide_eq_true hpk).symm

/-- Re-persisting the same batch over an already-persisted revision list
changes nothing (the batch keys are distinct, as scan results' keys
are). -/
theorem persistRevisions_idem (hashes : List (String × String)) :
    ∀ (D : List (Nat × RevisionRecord)) (revs revs' : List (Nat × RevisionRecord)),
      (D.map Prod.fst).Nodup →
      persistRevisions hashes D revs = .ok revs' →
      persistRevisions hashes D revs' = .ok revs' := by
  intro D
  induction D with
  | nil =>
    intro revs revs' _ h
    cases h
    rfl
  | cons q rest ih =>
    intro revs revs' hnd h
    obtain ⟨rev, rd⟩ := q
    simp only [List.map_cons, List.nodup_cons] at hnd
    obtain ⟨hrev, hndrest⟩ := hnd
    simp only [persistRevisions] at h ⊢
    cases hj : joinRecord hashes rd with
    | error e => rw [hj] at h; cases h
    | ok joined =>
      rw [hj] at h
      dsimp only at h ⊢
      set newVal := (match revsGet revs rev with
        | some existing => updateRecord existing joined
        | none => joined) with hnv
      have hpres := persistRevisions_preserves hashes rev newVal rest
        (revsSet revs rev newVal) revs' h hrev
      have hall' : ∀ p ∈ revs', (p : Nat × RevisionRecord).1 = rev → p.2 = newVal :=
        hpres.1 (allkey_revsSet revs rev newVal)
      have hany' : revs'.any (fun p => p.1 = rev) = true :=
        hpres.2 (any_revsSet_self revs rev newVal)
      have hget' : revsGet revs' rev = some newVal := revsGet_of_allkey _ _ _ hany' hall'
      have hupd : updateRecord newVal joined = newVal := by
        rw [hnv]
        cases hg : revsGet revs rev with
        | some existing =>
          dsimp only
          exact updateRecord_idem existing joined
        | none =>
          dsimp only
          exact updateRecord_self joined
      rw [hget']
      dsimp only
      rw [hupd, revsSet_eq_self revs' rev newVal hall' hany']
      exact ih _ _ hndrest h

/-! ## C8 groundwork: scan structure -/

/-- The keys of a scan result form a sublist of the candidate list. -/
theorem scanList_keys_sublist (env : Env) (charm : String) (fuel : Nat) :
    ∀ (L : List Nat) (D : List (Nat × RevisionRecord)),
      scanList env charm fuel L = some D → List.Sublist (D.map Prod.fst) L := by
  intro L
  induction L with
  | nil =>
    intro D h
    cases h
    exact List.nil_sublist []
  | cons rev rest ih =>
    intro D h
    simp only [scanList] at h
    cases hl : listingLoop env charm rev fuel 0 3 with
    | none => rw [hl] at h; cases h
    | some o =>
      rw [hl] at h
      cases o with
      | none => exact (ih D h).cons rev
      | some rd =>
        dsimp only at h
        rcases Option.map_eq_some'.mp h with ⟨tail, htail, hD⟩
        subst hD
        simpa using (ih tail htail).cons₂ rev

/-- A candidate that produced no record in a successful scan had a
`some none` listing outcome. -/
theorem scanList_mem_none (env : Env) (charm : String) (fuel : Nat) :
    ∀ (L : List Nat) (D : List (Nat × RevisionRecord)),
      scanList env charm fuel L = some D → ∀ r ∈ L, r ∉ D.map Prod.fst →
        listingLoop env charm r fuel 0 3 = some none := by
  intro L
  induction L with
  | nil => intro D _ r hr; cases hr
  | cons rev rest ih =>
    intro D h r hr hnot
    simp only [scanList] at h
    cases hl : listingLoop env charm rev fuel 0 3 with
    | none => rw [hl] at h; cases h
    | some o =>
      rw [hl] at h
      cases o with
      | none =>
        rcases List.mem_cons.mp hr with he | he
        · subst he; exact hl
        · exact ih D h r he hnot
      | some rd =>
        dsimp only at h
        rcases Option.map_eq_some'.mp h with ⟨tail, htail, hD⟩
        subst hD
        rcases List.mem_cons.mp hr with he | he
        · exfalso
          apply hnot
          subst he
          simp
        · refine ih tail htail r he ?_
          intro hcon
          exact hnot (by simp [hcon])

/-- A candidate list on which every listing comes back empty scans to the
empty result. -/
theorem scanList_empty_of_none (env : Env) (charm : String) (fuel : Nat) :
    ∀ (L : List Nat), (∀ r ∈ L, listingLoop env charm r fuel 0 3 = some none) →
      scanList env charm fuel L = some [] := by
  intro L
  induction L with
  | nil => intro _; rfl
  | cons rev rest ih =>
    intro h
    simp only [scanList, h rev (List.mem_cons_self _ _)]
    exact ih (fun r hr => h r (List.mem_cons_of_mem _ hr))

/-- The initial accumulator bounds a `foldl Nat.max`. -/
theorem le_foldl_max (l : List Nat) : ∀ a : Nat, a ≤ l.foldl Nat.max a := by
  induction l with
  | nil => intro a; exact Nat.le_refl a
  | cons b rest ih =>
    intro a
    exact Nat.le_trans (Nat.le_max_left a b) (ih (Nat.max a b))

/-- Every member bounds a `foldl Nat.max`. -/
theorem mem_le_foldl_max (l : List Nat) : ∀ (a x : Nat), x ∈ l → x ≤ l.foldl Nat.max a := by
  induction l with
  | nil => intro a x hx; cases hx
  | cons b rest ih =>
    intro a x hx
    rcases List.mem_cons.mp hx with he | he
    · subst he
      exact Nat.le_trans (Nat.le_max_right a x) (le_foldl_max rest (Nat.max a x))
    · exact ih (Nat.max a b) x he

/-- `maxRevision` bounds every key of the batch. -/
theorem maxRevision_ge (D : List (Nat × RevisionRecord)) :
    ∀ p ∈ D, (p : Nat × RevisionRecord).1 ≤ maxRevision D := by
  intro p hp
  exact mem_le_foldl_max (D.map Prod.fst) 0 p.1 (List.mem_map_of_mem Prod.fst hp)

/-- Candidate lists have no duplicate revisions. -/
theorem revRange_nodup (hi : Nat) (lcr : Int) : (revRange hi lcr).Nodup :=
  (List.nodup_reverse.mpr (List.nodup_range _)).filter _

/-- After advancing the checkpoint to the maximum revision of a batch,
re-scanning yields either the very same batch (only when the highest
published revision is 0, via the `-1` trick) or the empty batch. -/
theorem scan_after_advance (env : Env) (charm : String) (fuel : Nat)
    (lcr : Int) (D : List (Nat × RevisionRecord))
    (hs : get_charmstore_revisions env charm lcr fuel = some D)
    (hne : D ≠ []) :
    get_charmstore_revisions env charm ((maxRevision D : Nat) : Int) fuel = some D ∨
    get_charmstore_revisions env charm ((maxRevision D : Nat) : Int) fuel = some [] := by
  by_cases hH : env.lastRevision charm = 0
  · left
    simp only [get_charmstore_revisions, hH, if_pos] at hs ⊢
    exact hs
  · right
    simp only [get_charmstore_revisions, if_neg hH] at hs ⊢
    obtain ⟨p₀, hp₀⟩ := List.exists_mem_of_ne_nil D hne
    have hk₀ : p₀.1 ∈ D.map Prod.fst := List.mem_map_of_mem Prod.fst hp₀
    have hk₀range : p₀.1 ∈ revRange (env.lastRevision charm) lcr :=
      (scanList_keys_sublist env charm fuel _ D hs).mem hk₀
    have hk₀lcr : lcr < (p₀.1 : Int) := (mem_revRange.mp hk₀range).2
    have hk₀M : p₀.1 ≤ maxRevision D := maxRevision_ge D p₀ hp₀
    apply scanList_empty_of_none
    intro r hr
    rcases mem_revRange.mp hr with ⟨hrH, hrM⟩
    have hrM' : maxRevision D < r := by exact_mod_cast hrM
    refine scanList_mem_none env charm fuel _ D hs r ?_ ?_
    · refine mem_revRange.mpr ⟨hrH, ?_⟩
      have : (p₀.1 : Int) ≤ (maxRevision D : Int) := by exact_mod_cast hk₀M
      have : lcr < (maxRevision D : Int) := lt_of_lt_of_le hk₀lcr this
      have h2 : (maxRevision D : Int) < (r : Int) := by exact_mod_cast hrM'
      omega
    · intro hcon
      have : r ≤ maxRevision D := by
        rcases List.mem_map.mp hcon with ⟨q, hq, hqr⟩
        exact hqr ▸ maxRevision_ge D q hq
      omega

/-! ## C8 groundwork: one charm iteration as a value transformer -/

/-- Normalisation keeps the checkpoint. -/
theorem lcrOf_normalizeValue (v : StoredValue) :
    lcrOf (normalizeValue v) = lcrOf v := by
  cases v <;> rfl

/-- Normalisation is idempotent. -/
theorem normalizeValue_idem (v : StoredValue) :
    normalizeValue (normalizeValue v) = normalizeValue v := by
  cases v <;> rfl

/-- An empty scan only normalises the value and does not dump. -/
theorem processValue_of_scan_empty (env : Env) (fuel : Nat) (charm : String)
    (v : StoredValue)
    (h : get_charmstore_revisions env charm (lcrOf v : Int) fuel = some []) :
    processValue env fuel charm v = .ok (normalizeValue v, false) := by
  unfold processValue
  rw [h]
  rfl

/-- Conversely, a non-dumping success means the scan was empty and the
value was only normalised. -/
theorem processValue_false_inv (env : Env) (fuel : Nat) (charm : String)
    (v v' : StoredValue)
    (h : processValue env fuel charm v = .ok (v', false)) :
    get_charmstore_revisions env charm (lcrOf v : Int) fuel = some [] ∧
      v' = normalizeValue v := by
  unfold processValue at h
  cases hs : get_charmstore_revisions env charm (lcrOf v : Int) fuel with
  | none => rw [hs] at h; cases h
  | some D =>
    rw [hs] at h
    dsimp only at h
    by_cases hD : D.isEmpty
    · rw [if_pos hD] at h
      have hDnil : D = [] := List.isEmpty_iff.mp hD
      subst hDnil
      simp only [Except.ok.injEq, Prod.mk.injEq] at h
      exact ⟨rfl, h.1.symm⟩
    · rw [if_neg hD] at h
      cases hf : findUserRepo D with
      | error e => rw [hf] at h; cases h
      | ok o =>
        rw [hf] at h
        cases o with
        | none => simp at h
        | some ur =>
          obtain ⟨u, r⟩ := ur
          dsimp only at h
          cases hp : persistRevisions (stable_sha_dict env u r) D (revsOf v) with
          | error e => rw [hp] at h; cases h
          | ok revs2 => rw [hp] at h; simp at h

/-- The value written back by a dumping iteration is a fixed point: one
more iteration writes the same value again (it either re-scans the same
batch — only possible when the highest revision is 0 — and re-persists it
identically, or scans nothing). -/
theorem processValue_fix (env : Env) (fuel : Nat) (charm : String)
    (v v₂ : StoredValue)
    (h : processValue env fuel charm v = .ok (v₂, true)) :
    (∃ lr rv, v₂ = .entry lr rv) ∧
      ∃ fl, processValue env fuel charm v₂ = .ok (v₂, fl) := by
  unfold processValue at h
  cases hs : get_charmstore_revisions env charm (lcrOf v : Int) fuel with
  | none => rw [hs] at h; cases h
  | some D =>
    rw [hs] at h
    dsimp only at h
    by_cases hD : D.isEmpty
    · rw [if_pos hD] at h
      simp at h
    · rw [if_neg hD] at h
      have hne : D ≠ [] := by
        intro he
        rw [he] at hD
        exact hD rfl
      cases hf : findUserRepo D with
      | error e => rw [hf] at h; cases h
      | ok o =>
        rw [hf] at h
        cases o with
        | none =>
          dsimp only at h
          have hv₂ : v₂ = .entry (some (maxRevision D)) (revsOf v) := by
            simp only [Except.ok.injEq, Prod.mk.injEq] at h
            exact h.1.symm
          subst hv₂
          refine ⟨⟨_, _, rfl⟩, ?_⟩
          have hl : (lcrOf (StoredValue.entry (some (maxRevision D)) (revsOf v)) : Int) =
              ((maxRevision D : Nat) : Int) := rfl
          rcases scan_after_advance env charm fuel (lcrOf v) D hs hne with h2 | h2
          · refine ⟨true, ?_⟩
            unfold processValue
            rw [hl, h2]
            dsimp only
            rw [if_neg hD, hf]
            rfl
          · refine ⟨false, ?_⟩
            unfold processValue
            rw [hl, h2]
            rfl
        | some ur =>
          obtain ⟨u, r⟩ := ur
          dsimp only at h
          cases hp : persistRevisions (stable_sha_dict env u r) D (revsOf v) with
          | error e => rw [hp] at h; cases h
          | ok revs2 =>
            rw [hp] at h
            dsimp only at h
            have hv₂ : v₂ = .entry (some (maxRevision D)) revs2 := by
              simp only [Except.ok.injEq, Prod.mk.injEq] at h
              exact h.1.symm
            subst hv₂
            refine ⟨⟨_, _, rfl⟩, ?_⟩
            have hnodup : (D.map Prod.fst).Nodup :=
              (revRange_nodup _ _).sublist (scanList_keys_sublist env charm fuel _ D hs)
            have hidem := persistRevisions_idem (stable_sha_dict env u r) D
              (revsOf v) revs2 hnodup hp
            have hl : (lcrOf (StoredValue.entry (some (maxRevision D)) revs2) : Int) =
                ((maxRevision D : Nat) : Int) := rfl
            rcases scan_after_advance env charm fuel (lcrOf v) D hs hne with h2 | h2
            · refine ⟨true, ?_⟩
              unfold processValue
              rw [hl, h2]
              dsimp only
              rw [if_neg hD, hf]
              dsimp only
              have hrv : revsOf (StoredValue.entry (some (maxRevision D)) revs2) = revs2 := rfl
              rw [hrv, hidem]
            · refine ⟨false, ?_⟩
              unfold processValue
              rw [hl, h2]
              rfl

/-- One charm iteration is exactly: apply the value transformer to the
charm's stored value, write the result back, and dump when the
transformer dumped. -/
theorem processCharm_eq (env : Env) (fuel : Nat) (st : RunState) (charm : String)
    (hnd : (st.memory.map Prod.fst).Nodup) :
    processCharm env fuel st charm =
      match processValue env fuel charm ((storeGet st.memory charm).getD .legacy) with
      | .error e => .error e
      | .ok (v', false) => .ok ⟨storeSet st.memory charm v', st.dumped⟩
      | .ok (v', true) => .ok ⟨storeSet st.memory charm v', storeSet st.memory charm v'⟩ := by
  cases hdet : (storeGet st.memory charm).getD .legacy with
  | legacy =>
    simp only [processCharm, processValue, hdet, lcrOf, revsOf, normalizeValue]
    cases hs : get_charmstore_revisions env charm ((0 : Nat) : Int) fuel with
    | none => rfl
    | some D =>
      dsimp only
      by_cases hDe : D.isEmpty
      · simp only [if_pos hDe]
      · simp only [if_neg hDe]
        cases hfu : findUserRepo D with
        | error e => rfl
        | ok o =>
          cases o with
          | none =>
            dsimp only
            rw [storeSet_storeSet]
          | some ur =>
            obtain ⟨u, r⟩ := ur
            dsimp only
            cases hp : persistRevisions (stable_sha_dict env u r) D [] with
            | error e => rfl
            | ok revs2 =>
              dsimp only
              rw [storeSet_storeSet, storeSet_storeSet]
  | entry lr revs =>
    simp only [processCharm, processValue, hdet, lcrOf, revsOf, normalizeValue]
    cases hs : get_charmstore_revisions env charm ((lr.getD 0 : Nat) : Int) fuel with
    | none => rfl
    | some D =>
      dsimp only
      by_cases hDe : D.isEmpty
      · simp only [if_pos hDe]
        have hget : storeGet st.memory charm = some (.entry lr revs) := by
          cases hg : storeGet st.memory charm with
          | none => rw [hg] at hdet; cases hdet
          | some w => rw [hg] at hdet; rw [Option.getD_some] at hdet; rw [hdet]
        rw [storeSet_eq_self st.memory charm _ hnd hget]
      · simp only [if_neg hDe]
        cases hfu : findUserRepo D with
        | error e => rfl
        | ok o =>
          cases o with
          | none => rfl
          | some ur =>
            obtain ⟨u, r⟩ := ur
            dsimp only
            cases hp : persistRevisions (stable_sha_dict env u r) D revs with
            | error e => rfl
            | ok revs2 =>
              dsimp only
              rw [storeSet_storeSet]

/-- Normalisation always yields a dict value. -/
theorem normalizeValue_is_entry (v : StoredValue) :
    ∃ lr rv, normalizeValue v = .entry lr rv := by
  cases v with
  | legacy => exact ⟨none, [], rfl⟩
  | entry lr rv => exact ⟨lr, rv, rfl⟩

/-- What one run guarantees about the file it leaves behind: either it
never dumped (the file is the input file and every charm scans empty), or
the processed list splits into a prefix of charms whose values in the
final file are fixed points, followed by a suffix of charms — processed
after the last dump — whose file values are their input values and whose
scans come back empty. -/
theorem run1_post (env : Env) (fuel : Nat) :
    ∀ (cs : List String) (m d mF s : Store),
      cs.Nodup →
      (m.map Prod.fst).Nodup →
      (∀ c ∈ cs, (storeGet m c).isSome) →
      (∀ c ∈ cs, storeGet m c = storeGet d c) →
      processList env fuel ⟨m, d⟩ cs = .ok ⟨mF, s⟩ →
      (s = d ∧ ∀ c ∈ cs, EmptyAt env fuel s c ∧ storeGet s c = storeGet m c) ∨
      ((∀ x, x ∉ cs → storeGet s x = storeGet m x) ∧
        ∃ cs₁ cs₂, cs = cs₁ ++ cs₂ ∧ (∀ c ∈ cs₁, StableAt env fuel s c) ∧
          (∀ c ∈ cs₂, EmptyAt env fuel s c ∧ storeGet s c = storeGet m c)) := by
  intro cs
  induction cs with
  | nil =>
    intro m d mF s _ _ _ _ h
    simp only [processList] at h
    cases h
    exact Or.inl ⟨rfl, fun c hc => absurd hc (List.not_mem_nil c)⟩
  | cons c rest ih =>
    intro m d mF s hnd hndm hkeys h2 h
    rcases List.nodup_cons.mp hnd with ⟨hc, hndrest⟩
    simp only [processList] at h
    rw [processCharm_eq env fuel ⟨m, d⟩ c hndm] at h
    cases hpv : processValue env fuel c ((storeGet m c).getD .legacy) with
    | error e => rw [hpv] at h; cases h
    | ok p =>
      obtain ⟨v', fl⟩ := p
      rw [hpv] at h
      dsimp only at h
      have hndm' : ((storeSet m c v').map Prod.fst).Nodup := by
        rw [storeSet_keys]; exact hndm
      have hkeys' : ∀ c' ∈ rest, (storeGet (storeSet m c v') c').isSome := by
        intro c' hc'
        rw [storeGet_storeSet_ne m c c' v' (fun he => hc (he ▸ hc'))]
        exact hkeys c' (List.mem_cons_of_mem _ hc')
      cases fl with
      | false =>
        obtain ⟨hscan, hv'⟩ := processValue_false_inv env fuel c _ v' hpv
        have h2' : ∀ c' ∈ rest, storeGet (storeSet m c v') c' = storeGet d c' := by
          intro c' hc'
          rw [storeGet_storeSet_ne m c c' v' (fun he => hc (he ▸ hc'))]
          exact h2 c' (List.mem_cons_of_mem _ hc')
        rcases ih (storeSet m c v') d mF s hndrest hndm' hkeys' h2' h with
          ⟨hsd, hrest⟩ | ⟨hout, cs₁, cs₂, hsplit, hstab, hemp⟩
        · left
          refine ⟨hsd, ?_⟩
          intro c' hc'
          rcases List.mem_cons.mp hc' with he | he
          · subst he
            have hsc : storeGet s c' = storeGet m c' := by
              rw [hsd]
              exact (h2 c' (List.mem_cons_self _ _)).symm
            refine ⟨?_, hsc⟩
            unfold EmptyAt
            rw [hsc]
            exact hscan
          · obtain ⟨he1, he2⟩ := hrest c' he
            refine ⟨he1, ?_⟩
            rw [he2, storeGet_storeSet_ne m c c' v' (fun hx => hc (hx ▸ he))]
        · right
          constructor
          · intro x hx
            rw [List.mem_cons, not_or] at hx
            rw [hout x hx.2, storeGet_storeSet_ne m c x v' hx.1]
          · refine ⟨c :: cs₁, cs₂, by rw [hsplit, List.cons_append], ?_, ?_⟩
            · intro c' hc'
              rcases List.mem_cons.mp hc' with he | he
              · subst he
                have hgs : storeGet s c' = some v' := by
                  rw [hout c' hc, storeGet_storeSet_self]
                  cases hg : storeGet m c' with
                  | none =>
                    exfalso
                    have := hkeys c' (List.mem_cons_self _ _)
                    rw [hg] at this
                    cases this
                  | some w => rfl
                obtain ⟨lr, rv, hshape⟩ := normalizeValue_is_entry
                  ((storeGet m c').getD .legacy)
                rw [hv'] at hgs
                have hfixed : processValue env fuel c' (normalizeValue
                    ((storeGet m c').getD .legacy)) =
                    .ok (normalizeValue ((storeGet m c').getD .legacy), false) := by
                  have := processValue_of_scan_empty env fuel c'
                    (normalizeValue ((storeGet m c').getD .legacy))
                    (by rw [lcrOf_normalizeValue]; exact hscan)
                  rwa [normalizeValue_idem] at this
                refine ⟨lr, rv, false, ?_, ?_⟩
                · rw [hgs, hshape]
                · rw [← hshape]
                  exact hfixed
              · exact hstab c' he
            · intro c' hc'
              obtain ⟨he1, he2⟩ := hemp c' hc'
              have hcrest : c' ∈ rest := by rw [hsplit]; exact List.mem_append_right _ hc'
              refine ⟨he1, ?_⟩
              rw [he2, storeGet_storeSet_ne m c c' v' (fun hx => hc (hx ▸ hcrest))]
      | true =>
        obtain ⟨⟨lrv, rvv, hvshape⟩, flv, hfixed⟩ := processValue_fix env fuel c _ v' hpv
        have h2' : ∀ c' ∈ rest, storeGet (storeSet m c v') c' =
            storeGet (storeSet m c v') c' := fun _ _ => rfl
        rcases ih (storeSet m c v') (storeSet m c v') mF s hndrest hndm' hkeys' h2' h with
          ⟨hsd, hrest⟩ | ⟨hout, cs₁, cs₂, hsplit, hstab, hemp⟩
        · right
          constructor
          · intro x hx
            rw [List.mem_cons, not_or] at hx
            rw [hsd, storeGet_storeSet_ne m c x v' hx.1]
          · refine ⟨[c], rest, rfl, ?_, ?_⟩
            · intro c' hc'
              rcases List.mem_cons.mp hc' with he | he
              · subst he
                have hgs : storeGet s c' = some v' := by
                  rw [hsd, storeGet_storeSet_self]
                  cases hg : storeGet m c' with
                  | none =>
                    exfalso
                    have := hkeys c' (List.mem_cons_self _ _)
                    rw [hg] at this
                    cases this
                  | some w => rfl
                refine ⟨lrv, rvv, flv, ?_, ?_⟩
                · rw [hgs, hvshape]
                · rw [← hvshape]
                  exact hfixed
              · cases he
            · intro c' hc'
              obtain ⟨he1, he2⟩ := hrest c' hc'
              refine ⟨he1, ?_⟩
              rw [he2, storeGet_storeSet_ne m c c' v' (fun hx => hc (hx ▸ hc'))]
        · right
          constructor
          · intro x hx
            rw [List.mem_cons, not_or] at hx
            rw [hout x hx.2, storeGet_storeSet_ne m c x v' hx.1]
          · refine ⟨c :: cs₁, cs₂, by rw [hsplit, List.cons_append], ?_, ?_⟩
            · intro c' hc'
              rcases List.mem_cons.mp hc' with he | he
              · subst he
                have hgs : storeGet s c' = some v' := by
                  rw [hout c' hc, storeGet_storeSet_self]
                  cases hg : storeGet m c' with
                  | none =>
                    exfalso
                    have := hkeys c' (List.mem_cons_self _ _)
                    rw [hg] at this
                    cases this
                  | some w => rfl
                refine ⟨lrv, rvv, flv, ?_, ?_⟩
                · rw [hgs, hvshape]
                · rw [← hvshape]
                  exact hfixed
              · exact hstab c' he
            · intro c' hc'
              obtain ⟨he1, he2⟩ := hemp c' hc'
              have hcrest : c' ∈ rest := by rw [hsplit]; exact List.mem_append_right _ hc'
              refine ⟨he1, ?_⟩
              rw [he2, storeGet_storeSet_ne m c c' v' (fun hx => hc (hx ▸ hcrest))]

/-- One charm iteration never changes the key list of the in-memory
store, and the dump it leaves is either the previous dump or its own
memory. -/
theorem processCharm_keys (env : Env) (fuel : Nat) (st : RunState) (charm : String)
    (st' : RunState) (h : processCharm env fuel st charm = .ok st') :
    st'.memory.map Prod.fst = st.memory.map Prod.fst ∧
      (st'.dumped = st.dumped ∨ st'.dumped = st'.memory) := by
  simp only [processCharm] at h
  cases hdet : (storeGet st.memory charm).getD .legacy with
  | legacy =>
    rw [hdet] at h
    dsimp only at h
    cases hs : get_charmstore_revisions env charm ((0 : Nat) : Int) fuel with
    | none => rw [hs] at h; cases h
    | some D =>
      rw [hs] at h
      dsimp only at h
      by_cases hDe : D.isEmpty
      · rw [if_pos hDe] at h
        cases h
        exact ⟨storeSet_keys _ _ _, Or.inl rfl⟩
      · rw [if_neg hDe] at h
        cases hfu : findUserRepo D with
        | error e => rw [hfu] at h; cases h
        | ok o =>
          rw [hfu] at h
          cases o with
          | none =>
            cases h
            exact ⟨by rw [storeSet_keys, storeSet_keys], Or.inr rfl⟩
          | some ur =>
            obtain ⟨u, r⟩ := ur
            dsimp only at h
            cases hp : persistRevisions (stable_sha_dict env u r) D [] with
            | error e => rw [hp] at h; cases h
            | ok revs2 =>
              rw [hp] at h
              cases h
              exact ⟨by rw [storeSet_keys, storeSet_keys, storeSet_keys], Or.inr rfl⟩
  | entry lr revs =>
    rw [hdet] at h
    dsimp only at h
    cases hs : get_charmstore_revisions env charm ((lr.getD 0 : Nat) : Int) fuel with
    | none => rw [hs] at h; cases h
    | some D =>
      rw [hs] at h
      dsimp only at h
      by_cases hDe : D.isEmpty
      · rw [if_pos hDe] at h
        cases h
        exact ⟨rfl, Or.inl rfl⟩
      · rw [if_neg hDe] at h
        cases hfu : findUserRepo D with
        | error e => rw [hfu] at h; cases h
        | ok o =>
          rw [hfu] at h
          cases o with
          | none =>
            cases h
            exact ⟨storeSet_keys _ _ _, Or.inr rfl⟩
          | some ur =>
            obtain ⟨u, r⟩ := ur
            dsimp only at h
            cases hp : persistRevisions (stable_sha_dict env u r) D revs with
            | error e => rw [hp] at h; cases h
            | ok revs2 =>
              rw [hp] at h
              cases h
              exact ⟨by rw [storeSet_keys, storeSet_keys], Or.inr rfl⟩

/-- Over a whole run the memory key list is invariant, and so is the key
list of the file, when it starts equal to the memory's. -/
theorem processList_keys (env : Env) (fuel : Nat) :
    ∀ (cs : List String) (m d mF dF : Store),
      processList env fuel ⟨m, d⟩ cs = .ok ⟨mF, dF⟩ →
      d.map Prod.fst = m.map Prod.fst →
      mF.map Prod.fst = m.map Prod.fst ∧ dF.map Prod.fst = m.map Prod.fst := by
  intro cs
  induction cs with
  | nil =>
    intro m d mF dF h hd
    simp only [processList] at h
    cases h
    exact ⟨rfl, hd⟩
  | cons c rest ih =>
    intro m d mF dF h hd
    simp only [processList] at h
    cases hp : processCharm env fuel ⟨m, d⟩ c with
    | error e => rw [hp] at h; cases h
    | ok st2 =>
      rw [hp] at h
      obtain ⟨m2, d2⟩ := st2
      obtain ⟨hk, hdk⟩ := processCharm_keys env fuel ⟨m, d⟩ c ⟨m2, d2⟩ hp
      dsimp only at hk hdk
      have hd2 : d2.map Prod.fst = m2.map Prod.fst := by
        rcases hdk with he | he
        · rw [he, hd, hk]
        · rw [he]
      obtain ⟨h1, h2⟩ := ih m2 d2 mF dF h hd2
      exact ⟨by rw [h1, hk], by rw [h2, hk]⟩

/-- Sorted insertion permutes. -/
theorem insertSortedStr_perm (x : String) (l : List String) :
    (insertSortedStr x l).Perm (x :: l) := by
  induction l with
  | nil => exact List.Perm.refl _
  | cons y ys ih =>
    unfold insertSortedStr
    by_cases h : x ≤ y
    · rw [if_pos h]
    · rw [if_neg h]
      exact (ih.cons y).trans (List.Perm.swap x y ys)

/-- Sorting permutes. -/
theorem sortedStrings_perm (l : List String) : (sortedStrings l).Perm l := by
  induction l with
  | nil => exact List.Perm.refl _
  | cons x xs ih =>
    exact (insertSortedStr_perm x (sortedStrings xs)).trans (ih.cons x)

/-- Charms whose scan comes back empty only get normalised in memory: a
second run over them never dumps, whatever the carried dump is. -/
theorem run2_empty_suffix (env : Env) (fuel : Nat) (s : Store) :
    ∀ (cs : List String) (m₂ dmp : Store),
      cs.Nodup →
      (m₂.map Prod.fst).Nodup →
      (∀ c ∈ cs, storeGet m₂ c = storeGet s c) →
      (∀ c ∈ cs, EmptyAt env fuel s c) →
      ∃ mF, processList env fuel ⟨m₂, dmp⟩ cs = .ok ⟨mF, dmp⟩ := by
  intro cs
  induction cs with
  | nil =>
    intro m₂ dmp _ _ _ _
    exact ⟨m₂, rfl⟩
  | cons c rest ih =>
    intro m₂ dmp hnd hndm hagree hemp
    rcases List.nodup_cons.mp hnd with ⟨hc, hndrest⟩
    simp only [processList]
    rw [processCharm_eq env fuel ⟨m₂, dmp⟩ c hndm]
    have hsc : storeGet m₂ c = storeGet s c := hagree c (List.mem_cons_self _ _)
    have hscan : get_charmstore_revisions env c
        ((lcrOf ((storeGet m₂ c).getD .legacy) : Nat) : Int) fuel = some [] := by
      rw [hsc]
      exact hemp c (List.mem_cons_self _ _)
    have hpv := processValue_of_scan_empty env fuel c
      ((storeGet m₂ c).getD .legacy) hscan
    rw [hpv]
    dsimp only
    have hndm' : ((storeSet m₂ c (normalizeValue ((storeGet m₂ c).getD .legacy))).map
        Prod.fst).Nodup := by
      rw [storeSet_keys]
      exact hndm
    have hagree' : ∀ c' ∈ rest,
        storeGet (storeSet m₂ c (normalizeValue ((storeGet m₂ c).getD .legacy))) c' =
          storeGet s c' := by
      intro c' hc'
      have hne : c' ≠ c := fun he => hc (he ▸ hc')
      rw [storeGet_storeSet_ne m₂ c c' _ hne]
      exact hagree c' (List.mem_cons_of_mem _ hc')
    obtain ⟨mF, hrec⟩ := ih _ dmp hndrest hndm' hagree'
      (fun c' hc' => hemp c' (List.mem_cons_of_mem _ hc'))
    exact ⟨mF, hrec⟩

/-- A second run over a stable prefix followed by an empty suffix leaves
the dumped file exactly `s`. -/
theorem run2_stable (env : Env) (fuel : Nat) (s : Store)
    (hnds : (s.map Prod.fst).Nodup) :
    ∀ (cs₁ cs₂ : List String),
      (cs₁ ++ cs₂).Nodup →
      (∀ c ∈ cs₁, StableAt env fuel s c) →
      (∀ c ∈ cs₂, EmptyAt env fuel s c) →
      ∃ mF, processList env fuel ⟨s, s⟩ (cs₁ ++ cs₂) = .ok ⟨mF, s⟩ := by
  intro cs₁
  induction cs₁ with
  | nil =>
    intro cs₂ hnd hstab hemp
    exact run2_empty_suffix env fuel s cs₂ s s hnd hnds (fun _ _ => rfl) hemp
  | cons c cs₁' ih =>
    intro cs₂ hnd hstab hemp
    rw [List.cons_append] at hnd
    rcases List.nodup_cons.mp hnd with ⟨hc, hndrest⟩
    simp only [List.cons_append, processList]
    rw [processCharm_eq env fuel ⟨s, s⟩ c hnds]
    obtain ⟨lr, rv, fl, hget, hfix⟩ := hstab c (List.mem_cons_self _ _)
    have hv : (storeGet s c).getD .legacy = .entry lr rv := by
      rw [hget]
      rfl
    rw [hv, hfix]
    have hss : storeSet s c (.entry lr rv) = s := storeSet_eq_self s c _ hnds hget
    obtain ⟨mF, hrec⟩ := ih cs₂ hndrest
      (fun c' hc' => hstab c' (List.mem_cons_of_mem _ hc')) hemp
    cases fl with
    | false =>
      dsimp only
      rw [hss]
      exact ⟨mF, hrec⟩
    | true =>
      dsimp only
      rw [hss]
      exact ⟨mF, hrec⟩

/-- C8: running the reconciler twice in succession against unchanged
registry and source-control responses leaves the persisted store after
the second run identical to the store after the first run.  The starting
store is a YAML mapping, so its keys carry no duplicates. -/
theorem reconciler_idempotent (env : Env) (fuel : Nat) (file s : Store)
    (hnd : (file.map Prod.fst).Nodup)
    (h1 : runMain env fuel file = .ok s) :
    runMain env fuel s = .ok s := by
  unfold runMain at h1 ⊢
  cases hp : processList env fuel ⟨file, file⟩ (sortedStrings (file.map Prod.fst)) with
  | error e => rw [hp] at h1; cases h1
  | ok st =>
    rw [hp] at h1
    obtain ⟨mF, dF⟩ := st
    dsimp only at h1
    have hds : dF = s := by
      simp only [Except.ok.injEq] at h1
      exact h1
    subst hds
    have hksnd : (sortedStrings (file.map Prod.fst)).Nodup :=
      (sortedStrings_perm (file.map Prod.fst)).symm.nodup hnd
    have hkeys : ∀ c ∈ sortedStrings (file.map Prod.fst), (storeGet file c).isSome := by
      intro c hcm
      exact storeGet_isSome_of_mem file c
        ((sortedStrings_perm (file.map Prod.fst)).mem_iff.mp hcm)
    have hkeyseq : dF.map Prod.fst = file.map Prod.fst :=
      (processList_keys env fuel _ file file mF dF hp rfl).2
    have hpost := run1_post env fuel (sortedStrings (file.map Prod.fst)) file file mF dF
      hksnd hnd hkeys (fun _ _ => rfl) hp
    rw [hkeyseq]
    rcases hpost with ⟨_, hall⟩ | ⟨_, cs₁, cs₂, hsplit, hstab, hemp⟩
    · obtain ⟨mF2, h2⟩ := run2_empty_suffix env fuel dF (sortedStrings (file.map Prod.fst))
        dF dF hksnd (by rw [hkeyseq]; exact hnd) (fun _ _ => rfl)
        (fun c hcm => (hall c hcm).1)
      rw [h2]
    · obtain ⟨mF2, h2⟩ := run2_stable env fuel dF (by rw [hkeyseq]; exact hnd) cs₁ cs₂
        (hsplit ▸ hksnd) hstab (fun c hcm => (hemp c hcm).1)
      rw [hsplit, h2]

/-- Witness for C8: a concrete first run joins revision 1 to
`stable/x` and advances the checkpoint; the theorem then gives that the
second run reproduces that store exactly. -/
theorem reconciler_idempotent_witness :
    runMain envFull 1
        [("c", StoredValue.entry (some 1)
          [(1, { sha := some "ab", user := some "u", repo := some "r",
                 release := some "stable/x" })])] =
      .ok [("c", StoredValue.entry (some 1)
          [(1, { sha := some "ab", user := some "u", repo := some "r",
                 release := some "stable/x" })])] :=
  reconciler_idempotent envFull 1 fileC1 _ (by decide) (by rfl)

end CharmRevisions
